import Mathlib

/-!
Verification development for the PDF PAN-entity extraction script
(`extract.py`).  The script's functions are embedded shallowly:

* machine strings become `List Char`;
* the third-party PDF reader and the generative-AI API are oracles
  (explicit parameters describing what the external call returned);
* fallible operations return `Option` / `Except`;
* Python exceptions that a function can raise are explicit constructors
  of its result type, so "never propagates an exception" is a provable
  statement rather than an artifact of the embedding.

Definitions come first, theorems afterwards.
-/

set_option maxRecDepth 4000

/-! ### Basic character classes -/

/-- The backquote character, written via its code point. -/
def bq : Char := Char.ofNat 96

/-- Python whitespace on the ASCII range: the characters removed by
`str.strip()` and matched by the regex class `\s`. -/
def isPyWs (c : Char) : Bool :=
  c = ' ' || c = '\t' || c = '\n' || c = '\r' || c = Char.ofNat 11 || c = Char.ofNat 12

/-- JSON whitespace (the characters `json.loads` skips between tokens). -/
def isJsonWs (c : Char) : Bool :=
  c = ' ' || c = '\t' || c = '\n' || c = '\r'

/-- Python `str.strip()`: drop leading and trailing whitespace. -/
def pyStrip (s : List Char) : List Char :=
  ((s.dropWhile isPyWs).reverse.dropWhile isPyWs).reverse

/-! ### Chunker (`chunk_text`, extract.py lines 70-89)

`chunk_text` splits the text on the paragraph separator `"\n\n"`
(Python `text.split('\n\n')`), then greedily packs sections into chunks.
-/

/-- The paragraph separator `"\n\n"` as a character list. -/
def paraSep : List Char := ['\n', '\n']

/-- Python `text.split("\n\n")`: leftmost, non-overlapping splitting on the
two-newline separator.  `"".split("\n\n") = [""]`, so the empty text yields
the single empty section. -/
def splitOnPara : List Char → List (List Char)
  | [] => [[]]
  | [c] => [[c]]
  | c₁ :: c₂ :: rest =>
    if c₁ = '\n' ∧ c₂ = '\n' then [] :: splitOnPara rest
    else
      match splitOnPara (c₂ :: rest) with
      | [] => [[c₁]]
      | t :: ts => (c₁ :: t) :: ts

/-- Joining sections back with the paragraph separator (the inverse of
`splitOnPara`; Python `"\n\n".join(sections)`). -/
def intercalatePara : List (List Char) → List Char
  | [] => []
  | [s] => s
  | s :: t :: rest => s ++ '\n' :: '\n' :: intercalatePara (t :: rest)

/-- One iteration of the `for section in sections` loop of `chunk_text`:
the accumulator is the pair (chunks built so far, current chunk). -/
def chunkStep (max_chars : Nat) (acc : List (List Char) × List Char)
    (sec : List Char) : List (List Char) × List Char :=
  if acc.2.length + sec.length < max_chars then
    (acc.1, acc.2 ++ sec ++ paraSep)
  else
    ((if acc.2 ≠ [] then acc.1 ++ [acc.2] else acc.1), sec ++ paraSep)

/-- `chunk_text(text, max_chars=120000)` from extract.py lines 70-89. -/
def chunk_text (text : List Char) (max_chars : Nat := 120000) :
    List (List Char) :=
  let sections := splitOnPara text
  let r := sections.foldl (chunkStep max_chars) ([], [])
  if r.2 ≠ [] then r.1 ++ [r.2] else r.1

/-- Every section followed by the paragraph separator, concatenated: the
total character content the chunk loop emits. -/
def withSeps (l : List (List Char)) : List Char :=
  (l.map (fun s => s ++ paraSep)).join

/-- Total length of a list of sections. -/
def sumLens (l : List (List Char)) : Nat := (l.map List.length).sum

/-! ### ModelSelector (`get_available_models`, extract.py lines 31-68) -/

/-- One entry of the provider's model catalog: its name and the generation
methods it supports. -/
structure ModelInfo where
  name : List Char
  supported_generation_methods : List (List Char)

/-- The capability string the selector filters on. -/
def genContentName : List Char := "generateContent".data

/-- The fixed preference list from extract.py lines 37-45. -/
def preferred_order : List (List Char) :=
  ["gemini-2.0-flash".data,
   "gemini-2.5-flash".data,
   "gemini-flash-latest".data,
   "gemini-2.0-flash-lite".data,
   "gemini-2.5-flash-lite".data,
   "gemini-2.5-pro".data,
   "gemini-pro-latest".data]

/-- Python `p in s` on strings: substring test. -/
def substrOf (p : List Char) : List Char → Bool
  | [] => p.isEmpty
  | s@(_ :: rest) => p.isPrefixOf s || substrOf p rest

/-- Names of the catalog models that support content generation, in catalog
order (the `available_models` list of lines 47-50). -/
def supportedNames (catalog : List ModelInfo) : List (List Char) :=
  (catalog.filter
    (fun m => m.supported_generation_methods.contains genContentName)).map
    ModelInfo.name

/-- One appending step of the selector's loops: append the scanned name if
it satisfies the guard and is not yet listed (`available not in
sorted_models`). -/
def selStep (pred : List Char → Bool) (sm : List (List Char))
    (a : List Char) : List (List Char) :=
  if pred a && !(sm.contains a) then sm ++ [a] else sm

/-- The preference pass of lines 53-57: for each preferred substring in
order, append every available model containing it that is not yet listed. -/
def preferredPass (available : List (List Char)) : List (List Char) :=
  preferred_order.foldl
    (fun sm p => available.foldl (selStep (substrOf p)) sm)
    []

/-- `get_available_models` (extract.py lines 31-68).  The provider catalog
query is an oracle: `.error` is the case where listing models raises, in
which case the function returns the empty list (lines 66-68).  The final
loop (lines 60-62) appends the remaining models; its guard is the plain
`available not in sorted_models`, i.e. `selStep` with a trivially true
predicate. -/
def get_available_models (catalogQuery : Except (List Char) (List ModelInfo)) :
    List (List Char) :=
  match catalogQuery with
  | .error _ => []
  | .ok catalog =>
    let available := supportedNames catalog
    let sorted_models := preferredPass available
    available.foldl (selStep (fun _ => true)) sorted_models

/-- First index of a list entry satisfying the test. -/
def findIdxP (pp : List Char → Bool) : List (List Char) → Option Nat
  | [] => none
  | q :: l => if pp q then some 0 else (findIdxP pp l).map (· + 1)

/-- The index of the first preference-list entry that is a substring of the
model name, if any. -/
def firstMatchIdx (a : List Char) : Option Nat :=
  findIdxP (fun p => substrOf p a) preferred_order

/-- The rank of a model name: its first matching preference index, with
non-matching models ranked after every preference entry. -/
def rankOf (a : List Char) : Nat :=
  match firstMatchIdx a with
  | some k => k
  | none => preferred_order.length

/-- Position of the first occurrence of a name in a list of names. -/
def idxOf (a : List Char) : List (List Char) → Nat
  | [] => 0
  | b :: l => if b = a then 0 else idxOf a l + 1

/-- The strict ordering the spec claims for the selector's output: models
with an earlier first-matching preference entry come first, and models of
equal rank (including the non-matching ones, ranked last) come in catalog
order. -/
def keyLt (avail : List (List Char)) (a b : List Char) : Prop :=
  rankOf a < rankOf b ∨ (rankOf a = rankOf b ∧ idxOf a avail < idxOf b avail)

/-! ### JSON values and a model of `json.loads`

`json.loads` is from the Python standard library; it is modelled by a
recursive-descent parser over the JSON grammar (values, arrays, objects,
strings with escapes, numbers with fraction and exponent).  Surrogate-pair
`\uXXXX` combination is not modelled (each escape yields one code point).
-/

/-- The left curly bracket character. -/
def lbrace : Char := Char.ofNat 123

/-- The right curly bracket character. -/
def rbrace : Char := Char.ofNat 125

/-- A parsed JSON value.  Numbers are modelled as rationals. -/
inductive JsonValue where
  | null
  | bool (b : Bool)
  | num (q : Rat)
  | str (s : List Char)
  | arr (elems : List JsonValue)
  | obj (fields : List (List Char × JsonValue))

/-- Skip JSON inter-token whitespace. -/
def skipJsonWs (s : List Char) : List Char := s.dropWhile isJsonWs

/-- Hexadecimal digit test. -/
def isHexD (c : Char) : Bool :=
  c.isDigit || ('a' ≤ c && c ≤ 'f') || ('A' ≤ c && c ≤ 'F')

/-- Value of a hexadecimal digit. -/
def hexVal (c : Char) : Nat :=
  if c.isDigit then c.toNat - '0'.toNat
  else if 'a' ≤ c && c ≤ 'f' then c.toNat - 'a'.toNat + 10
  else if 'A' ≤ c && c ≤ 'F' then c.toNat - 'A'.toNat + 10
  else 0

/-- Decode one escape sequence (the backslash already consumed). -/
def escStep (e : Char) (rest1 : List Char) : Option (Char × List Char) :=
  if e = '"' then some ('"', rest1)
  else if e = '\\' then some ('\\', rest1)
  else if e = '/' then some ('/', rest1)
  else if e = 'b' then some (Char.ofNat 8, rest1)
  else if e = 'f' then some (Char.ofNat 12, rest1)
  else if e = 'n' then some ('\n', rest1)
  else if e = 'r' then some ('\r', rest1)
  else if e = 't' then some ('\t', rest1)
  else if e = 'u' then
    match rest1 with
    | h1 :: h2 :: h3 :: h4 :: rest2 =>
      if isHexD h1 && isHexD h2 && isHexD h3 && isHexD h4 then
        some (Char.ofNat
          (((hexVal h1 * 16 + hexVal h2) * 16 + hexVal h3) * 16 + hexVal h4),
          rest2)
      else none
    | _ => none
  else none

/-- Parse the body of a JSON string (the opening quote already consumed),
returning the decoded characters and the input after the closing quote.
Unescaped control characters are rejected, as `json.loads` does in strict
mode. -/
def parseStrBody : Nat → List Char → Option (List Char × List Char)
  | 0, _ => none
  | _ + 1, [] => none
  | fuel + 1, c :: rest =>
    if c = '"' then some ([], rest)
    else if c = '\\' then
      match rest with
      | [] => none
      | e :: rest1 =>
        match escStep e rest1 with
        | none => none
        | some (ch, r) =>
          (parseStrBody fuel r).map (fun p => (ch :: p.1, p.2))
    else if c.toNat < 32 then none
    else (parseStrBody fuel rest).map (fun p => (c :: p.1, p.2))

/-- Decimal value of a digit list. -/
def digitsVal (ds : List Char) : Nat :=
  ds.foldl (fun n c => n * 10 + (c.toNat - '0'.toNat)) 0

/-- Leading minus sign of a JSON number. -/
def numSign (s : List Char) : Bool × List Char :=
  match s with
  | c :: r => if c = '-' then (true, r) else (false, s)
  | [] => (false, s)

/-- Optional fraction part `.digits` of a JSON number. -/
def numFrac (s2 : List Char) : Option (List Char × List Char) :=
  match s2 with
  | c :: r =>
    if c = '.' then
      let fd := r.takeWhile Char.isDigit
      if fd.isEmpty then none else some (fd, r.dropWhile Char.isDigit)
    else some ([], s2)
  | [] => some ([], s2)

/-- Optional exponent part `e[+-]digits` of a JSON number. -/
def numExp (s3 : List Char) : Option (Bool × List Char × List Char) :=
  match s3 with
  | c :: r =>
    if c = 'e' || c = 'E' then
      let sgn : Bool × List Char :=
        match r with
        | e :: rr =>
          if e = '+' then (false, rr)
          else if e = '-' then (true, rr)
          else (false, r)
        | [] => (false, r)
      let ed := sgn.2.takeWhile Char.isDigit
      if ed.isEmpty then none
      else some (sgn.1, ed, sgn.2.dropWhile Char.isDigit)
    else some (false, [], s3)
  | [] => some (false, [], s3)

/-- Parse a JSON number: optional minus, integer part without leading
zeros, optional fraction, optional exponent. -/
def parseNum (s : List Char) : Option (Rat × List Char) :=
  let sgn := numSign s
  let intD := sgn.2.takeWhile Char.isDigit
  let s2 := sgn.2.dropWhile Char.isDigit
  if intD.isEmpty then none
  else if intD.length > 1 && intD.headD '0' = '0' then none
  else
    match numFrac s2 with
    | none => none
    | some (fracD, s3) =>
      match numExp s3 with
      | none => none
      | some (negE, expD, s4) =>
        let base : Rat :=
          (digitsVal intD : Nat) + (digitsVal fracD : Nat) / ((10 : Rat) ^ fracD.length)
        let scaled : Rat :=
          if negE then base / (10 : Rat) ^ digitsVal expD
          else base * (10 : Rat) ^ digitsVal expD
        some ((if sgn.1 then -scaled else scaled), s4)

mutual

/-- Parse one JSON value from the front of the input.  Fuel-based
recursion; the fuel passed by `json_loads` always suffices. -/
def parseValue : Nat → List Char → Option (JsonValue × List Char)
  | 0, _ => none
  | _ + 1, [] => none
  | fuel + 1, 'n' :: 'u' :: 'l' :: 'l' :: r => some (.null, r)
  | fuel + 1, 't' :: 'r' :: 'u' :: 'e' :: r => some (.bool true, r)
  | fuel + 1, 'f' :: 'a' :: 'l' :: 's' :: 'e' :: r => some (.bool false, r)
  | fuel + 1, c :: r =>
    if c = '"' then
      (parseStrBody (r.length + 1) r).map (fun p => (.str p.1, p.2))
    else if c = '[' then
      match skipJsonWs r with
      | c' :: r' =>
        if c' = ']' then some (.arr [], r')
        else (parseElems fuel (c' :: r')).map (fun p => (.arr p.1, p.2))
      | [] => none
    else if c = lbrace then
      match skipJsonWs r with
      | c' :: r' =>
        if c' = rbrace then some (.obj [], r')
        else (parseMembers fuel (c' :: r')).map (fun p => (.obj p.1, p.2))
      | [] => none
    else (parseNum (c :: r)).map (fun p => (.num p.1, p.2))

/-- Parse the comma-separated elements of a non-empty array, consuming the
closing bracket. -/
def parseElems : Nat → List Char → Option (List JsonValue × List Char)
  | 0, _ => none
  | fuel + 1, s =>
    match parseValue fuel s with
    | none => none
    | some (v, r) =>
      match skipJsonWs r with
      | c :: r' =>
        if c = ',' then
          match parseElems fuel (skipJsonWs r') with
          | none => none
          | some (vs, r2) => some (v :: vs, r2)
        else if c = ']' then some ([v], r')
        else none
      | [] => none

/-- Parse the comma-separated members of a non-empty object, consuming the
closing brace. -/
def parseMembers : Nat → List Char → Option (List (List Char × JsonValue) × List Char)
  | 0, _ => none
  | fuel + 1, s =>
    match s with
    | '"' :: r =>
      match parseStrBody (r.length + 1) r with
      | none => none
      | some (key, r1) =>
        match skipJsonWs r1 with
        | c :: r2 =>
          if c = ':' then
            match parseValue fuel (skipJsonWs r2) with
            | none => none
            | some (v, r3) =>
              match skipJsonWs r3 with
              | c' :: r4 =>
                if c' = ',' then
                  match parseMembers fuel (skipJsonWs r4) with
                  | none => none
                  | some (ms, r5) => some ((key, v) :: ms, r5)
                else if c' = rbrace then some ((key, v) :: [], r4)
                else none
              | [] => none
          else none
        | [] => none
    | _ => none

end

/-- Model of `json.loads`: parse one value surrounded by optional
whitespace; anything else (including trailing data) fails. -/
def json_loads (s : List Char) : Option JsonValue :=
  match parseValue (2 * s.length + 2) (skipJsonWs s) with
  | none => none
  | some (v, r) => if skipJsonWs r = [] then some v else none

/-- Python truthiness of a parsed JSON value (`if parsed_data`). -/
def jsonTruthy : JsonValue → Bool
  | .null => false
  | .bool b => b
  | .num q => q ≠ 0
  | .str s => !s.isEmpty
  | .arr l => !l.isEmpty
  | .obj l => !l.isEmpty

/-- Lines 165-169: a parsed list is returned as is; any other value is
wrapped in a one-element list if truthy, else dropped. -/
def wrapRecords : JsonValue → List JsonValue
  | .arr l => l
  | v => if jsonTruthy v then [v] else []

/-- Lookup in a parsed JSON object: the last binding wins, as in the dict
`json.loads` builds. -/
def lookupLast (key : List Char) : List (List Char × JsonValue) → Option JsonValue
  | [] => none
  | kv :: rest =>
    match lookupLast key rest with
    | some v => some v
    | none => if kv.1 = key then some kv.2 else none

/-! ### Response-text cleaning (extract.py lines 150-163)

The markdown-fence regex `r'```(?:json)?\s*(\[.*?\])\s*```'` (with
`re.DOTALL`) is deterministic for this fixed pattern: the overall match
starts at the leftmost backquote fence; `(?:json)?` must consume `json`
exactly when it follows; `\s*` before `(\[` must skip the maximal
whitespace run (`[` is not whitespace); the lazy group ends at the first
`]` that is followed by whitespace and a closing fence.  `searchFence`
below implements exactly that search. -/

/-- The fence `"```"`. -/
def fenceL : List Char := [bq, bq, bq]

/-- The word `json`. -/
def jsonWordL : List Char := "json".data

/-- The string `"```json"`. -/
def fenceJsonL : List Char := fenceL ++ jsonWordL

/-- Python `'```' in text`. -/
def containsFence (s : List Char) : Bool := substrOf fenceL s

/-- The regex tail `\s*```‌`: after skipping whitespace the input starts
with a fence. -/
def fenceAfterWs (s : List Char) : Bool :=
  fenceL.isPrefixOf (s.dropWhile isPyWs)

/-- Lazy search for the group's closing `]`: the first `]` followed by
`\s*```‌` ends the group. -/
def findClose : List Char → Option (List Char)
  | [] => none
  | c :: rest =>
    if c = ']' && fenceAfterWs rest then some []
    else (findClose rest).map (fun g => c :: g)

/-- Try to match the whole fence pattern at the start of the input,
returning the captured bracketed group. -/
def matchFenceAt (s : List Char) : Option (List Char) :=
  if fenceL.isPrefixOf s then
    let r0 := s.drop 3
    let r1 := if jsonWordL.isPrefixOf r0 then r0.drop 4 else r0
    match r1.dropWhile isPyWs with
    | c :: body =>
      if c = '[' then (findClose body).map (fun g => '[' :: g ++ [']'])
      else none
    | [] => none
  else none

/-- `re.search` for the fixed fence pattern: try every start position from
the left. -/
def searchFence : List Char → Option (List Char)
  | [] => none
  | c :: rest =>
    match matchFenceAt (c :: rest) with
    | some g => some g
    | none => searchFence rest

/-- Python `text.replace('```json', '')`: remove every occurrence, left to
right, non-overlapping.  Inputs shorter than seven characters cannot hold
an occurrence and are kept as they are. -/
def removeFenceJson : List Char → List Char
  | c1 :: c2 :: c3 :: c4 :: c5 :: c6 :: c7 :: rest =>
    if c1 = bq && c2 = bq && c3 = bq && c4 = 'j' && c5 = 's' && c6 = 'o' && c7 = 'n' then
      removeFenceJson rest
    else c1 :: removeFenceJson (c2 :: c3 :: c4 :: c5 :: c6 :: c7 :: rest)
  | s => s

/-- Python `text.replace('```', '')`. -/
def removeFence : List Char → List Char
  | c1 :: c2 :: c3 :: rest =>
    if c1 = bq && c2 = bq && c3 = bq then removeFence rest
    else c1 :: removeFence (c2 :: c3 :: rest)
  | s => s

/-- Lines 150-160: strip the response, and if it contains a fence either
take the regex group or strip all fence markers out. -/
def cleanResponseText (raw : List Char) : List Char :=
  let cleaned := pyStrip raw
  if containsFence cleaned then
    match searchFence cleaned with
    | some g => g
    | none => pyStrip (removeFence (removeFenceJson cleaned))
  else cleaned

/-- One completion body through cleaning, `json.loads`, and the
list-wrapping of lines 163-169. -/
def parseChunkText (t : List Char) : Option (List JsonValue) :=
  (json_loads (cleanResponseText t)).map wrapRecords

/-- A body wrapped in markdown fences: ```` ```json\n<body>\n``` ````. -/
def wrapFenced (body : List Char) : List Char :=
  fenceJsonL ++ '\n' :: (body ++ '\n' :: fenceL)

/-! ### ExtractionClient (`extract_entities_from_chunk`, lines 91-192)

The generation call is an oracle: attempt `i` either raises (with some
message) or returns a response with a finish reason (of its first
candidate, `none` when there are no candidates) and a text.  The result is
an `Except`: `.error` would mean a Python exception propagating out of the
function, and the sleep log records every backoff the loop performs. -/

/-- Outcome of one `model.generate_content` call. -/
inductive Attempt where
  | raises (msg : List Char)
  | responds (finish : Option Int) (text : List Char)

/-- A Python exception: whether it is a `json.JSONDecodeError`, and its
message. -/
structure PyExc where
  isJSONDecodeError : Bool
  msg : List Char

/-- Lines 150-169: clean, parse and wrap the response text; a parse
failure raises `JSONDecodeError`. -/
def parseBody (text : List Char) : Except PyExc (List JsonValue) :=
  match json_loads (cleanResponseText text) with
  | none => .error ⟨true, "Expecting value".data⟩
  | some v => .ok (wrapRecords v)

/-- The `try` block of one loop iteration (lines 136-169): a raising call
re-raises; a finish reason other than 1 returns `[]`; otherwise the text is
parsed. -/
def tryBody (a : Attempt) : Except PyExc (List JsonValue) :=
  match a with
  | .raises m => .error ⟨false, m⟩
  | .responds fin text =>
    match fin with
    | some f => if f ≠ 1 then .ok [] else parseBody text
    | none => parseBody text

/-- Line 178: `"429" in error_msg or "quota" in error_msg.lower()`. -/
def isRateLimitMsg (msg : List Char) : Bool :=
  substrOf "429".data msg || substrOf "quota".data (msg.map Char.toLower)

/-- The retry loop of lines 135-192.  `attempt` is the current index,
`remaining` the number of iterations left (`max_retries - attempt`).
Returns the function result paired with the log of sleeps performed:
`2^attempt` after a JSON decode error, `2^(attempt+4)` after a rate-limit
error, none before giving up. -/
def chunkRetryGo (attempts : Nat → Attempt) (max_retries : Nat) :
    Nat → Nat → Except PyExc (List JsonValue) × List Nat
  | _, 0 => (.ok [], [])
  | attempt, remaining + 1 =>
    match tryBody (attempts attempt) with
    | .ok recs => (.ok recs, [])
    | .error e =>
      if e.isJSONDecodeError then
        if attempt < max_retries - 1 then
          let r := chunkRetryGo attempts max_retries (attempt + 1) remaining
          (r.1, 2 ^ attempt :: r.2)
        else chunkRetryGo attempts max_retries (attempt + 1) remaining
      else if isRateLimitMsg e.msg then
        if attempt < max_retries - 1 then
          let r := chunkRetryGo attempts max_retries (attempt + 1) remaining
          (r.1, 2 ^ (attempt + 4) :: r.2)
        else (.ok [], [])
      else (.ok [], [])

/-- `extract_entities_from_chunk` (lines 91-192) over the scripted attempt
outcomes. -/
def extract_entities_from_chunk (attempts : Nat → Attempt)
    (max_retries : Nat := 3) : Except PyExc (List JsonValue) × List Nat :=
  chunkRetryGo attempts max_retries 0 max_retries

/-! ### TextExtractor (`extract_text_from_pdf`, lines 9-29) -/

/-- The console diagnostic the function prints. -/
inductive PdfMsg where
  | fileNotFoundMsg
  | readErrorMsg
  | noTextMsg
  | okMsg

/-- Possible Python-level outcomes of `extract_text_from_pdf`: a normal
return (with its diagnostic), or a propagating `FileNotFoundError`. -/
inductive PdfResult where
  | ret (v : Option (List Char)) (msg : PdfMsg)
  | raisesFileNotFoundError

/-- Python `"\n".join`. -/
def joinNl : List (List Char) → List Char
  | [] => []
  | [p] => p
  | p :: q :: rest => p ++ '\n' :: joinNl (q :: rest)

/-- `extract_text_from_pdf` (lines 9-29).  The `PdfReader` call is an
oracle: `.error` when the library raises, `.ok pages` with the per-page
`extract_text()` results otherwise. -/
def extract_text_from_pdf (fileExists : Bool)
    (reader : Except (List Char) (List (List Char))) : PdfResult :=
  if !fileExists then .ret none .fileNotFoundMsg
  else
    match reader with
    | .error _ => .ret none .readErrorMsg
    | .ok pages =>
      let text_parts := pages.filter (fun p => !p.isEmpty)
      if text_parts.isEmpty then .ret none .noTextMsg
      else .ret (some (joinNl text_parts)) .okMsg

/-! ### Orchestrator (`extract_entities_with_gemini`, lines 194-288)

Per model the oracle gives either a raising model construction/processing
(`.raises`) or the per-chunk record lists `extract_entities_from_chunk`
returned.  Both the chunked branch (lines 230-253) and the single-request
branch (lines 254-263) accumulate non-empty chunk results and fall through
to the next model identically, so one control flow covers both (a
single-request run has a one-element `.chunkResults`). -/

/-- Outcome of trying one model. -/
inductive ModelRun where
  | raises (msg : List Char)
  | chunkResults (rs : List (List JsonValue))

/-- Lines 235-239: `all_entities.extend(chunk_entities)` for each
non-empty chunk result. -/
def accumulateEntities (rs : List (List JsonValue)) : List JsonValue :=
  rs.foldl (fun acc r => if r.isEmpty then acc else acc ++ r) []

/-- The model loop of lines 211-284.  `i` is the current model index,
`remaining` the number of models left to try.  `none` is the run-failure
return (`return None`), reached when the last model raises; an empty
accumulated result on the last model returns `some []` (lines 253, 263). -/
def orchestrateFrom (numModels : Nat) (runs : Nat → ModelRun) :
    Nat → Nat → Option (List JsonValue)
  | _, 0 => none
  | i, remaining + 1 =>
    match runs i with
    | .raises msg =>
      if isRateLimitMsg msg then
        if i < numModels - 1 then orchestrateFrom numModels runs (i + 1) remaining
        else none
      else
        if i < numModels - 1 then orchestrateFrom numModels runs (i + 1) remaining
        else none
    | .chunkResults rs =>
      let all_entities := accumulateEntities rs
      if !all_entities.isEmpty then some all_entities
      else if i < numModels - 1 then orchestrateFrom numModels runs (i + 1) remaining
      else some []

/-- `extract_entities_with_gemini` (lines 194-288): `none` when no models
are available (lines 201-203) and on run failure; `some` on any returned
record list, including the empty one. -/
def extract_entities_with_gemini (models : List (List Char))
    (runs : Nat → ModelRun) : Option (List JsonValue) :=
  if models.isEmpty then none
  else orchestrateFrom models.length runs 0 models.length

/-! ### CsvWriter (`write_to_csv`, lines 290-311) -/

/-- `item.get(key, '')` on a parsed record: field lookup with the empty
string as default (non-object items, which would raise inside the writer's
`try`, also map to the default here; no claim depends on them). -/
def itemGet (item : JsonValue) (key : List Char) : JsonValue :=
  match item with
  | .obj fields => (lookupLast key fields).getD (.str [])
  | _ => .str []

/-- The fixed CSV header. -/
def csvHeader : List JsonValue :=
  [.str "Entity (PAN)".data, .str "Relation".data, .str "Entity (Person)".data]

/-- `write_to_csv`: `none` models the early return that performs no write
when the data is empty (lines 292-294); otherwise the header row followed
by one row per record. -/
def write_to_csv (data : List JsonValue) : Option (List (List JsonValue)) :=
  if data.isEmpty then none
  else some (csvHeader ::
    data.map (fun item =>
      [itemGet item "pan".data, itemGet item "relation".data,
       itemGet item "entity".data]))

/-! ### Theorems -/

theorem splitOnPara_ne_nil (s : List Char) : splitOnPara s ≠ [] := by
  match s with
  | [] => simp [splitOnPara]
  | [c] => simp [splitOnPara]
  | c₁ :: c₂ :: rest =>
    rw [splitOnPara]
    split
    · simp
    · match h : splitOnPara (c₂ :: rest) with
      | [] => simp
      | t :: ts => simp

theorem intercalatePara_cons_cons (c : Char) (t : List Char)
    (ts : List (List Char)) :
    intercalatePara ((c :: t) :: ts) = c :: intercalatePara (t :: ts) := by
  match ts with
  | [] => rfl
  | u :: us => simp [intercalatePara]

theorem intercalatePara_splitOnPara (s : List Char) :
    intercalatePara (splitOnPara s) = s := by
  have H : ∀ n (s : List Char), s.length ≤ n →
      intercalatePara (splitOnPara s) = s := by
    intro n
    induction n with
    | zero =>
      intro s hs
      have : s = [] := List.eq_nil_of_length_eq_zero (Nat.le_zero.mp hs)
      subst this; rfl
    | succ n ih =>
      intro s hs
      match s with
      | [] => rfl
      | [c] => rfl
      | c₁ :: c₂ :: rest =>
        rw [splitOnPara]
        split
        · rename_i hnn
          obtain ⟨h1, h2⟩ := hnn
          subst h1; subst h2
          have hr : rest.length ≤ n := by
            simp at hs; omega
          have := splitOnPara_ne_nil rest
          match hsp : splitOnPara rest with
          | [] => exact absurd hsp this
          | t :: ts =>
            rw [intercalatePara]
            rw [← hsp, ih rest hr]
            simp
        · have hr : (c₂ :: rest).length ≤ n := by
            simp at hs ⊢; omega
          have := splitOnPara_ne_nil (c₂ :: rest)
          match hsp : splitOnPara (c₂ :: rest) with
          | [] => exact absurd hsp this
          | t :: ts =>
            rw [intercalatePara_cons_cons, ← hsp, ih _ hr]
  exact H s.length s le_rfl

theorem withSeps_nil : withSeps [] = [] := rfl

theorem withSeps_cons (s : List Char) (l : List (List Char)) :
    withSeps (s :: l) = s ++ paraSep ++ withSeps l := by
  simp [withSeps]

theorem withSeps_eq_intercalate (l : List (List Char)) (h : l ≠ []) :
    withSeps l = intercalatePara l ++ paraSep := by
  induction l with
  | nil => exact absurd rfl h
  | cons s rest ih =>
    match rest with
    | [] => simp [withSeps, intercalatePara, paraSep]
    | t :: ts =>
      rw [withSeps_cons, ih (by simp), intercalatePara]
      simp [paraSep]

theorem chunkStep_lt (mc : Nat) (chunks : List (List Char))
    (current sec : List Char) (h : current.length + sec.length < mc) :
    chunkStep mc (chunks, current) sec = (chunks, current ++ sec ++ paraSep) := by
  simp [chunkStep, h]

theorem chunkStep_ge_ne (mc : Nat) (chunks : List (List Char))
    (current sec : List Char) (h : ¬ current.length + sec.length < mc)
    (hc : current ≠ []) :
    chunkStep mc (chunks, current) sec =
      (chunks ++ [current], sec ++ paraSep) := by
  simp [chunkStep, h, hc]

theorem chunkStep_ge_nil (mc : Nat) (chunks : List (List Char))
    (sec : List Char) (h : ¬ (0 : Nat) + sec.length < mc) :
    chunkStep mc (chunks, []) sec = (chunks, sec ++ paraSep) := by
  simp [chunkStep, h]

/-- After `chunkStep` the current chunk always ends with the separator,
hence is non-empty. -/
theorem chunkStep_snd_ne_nil (mc : Nat) (acc : List (List Char) × List Char)
    (sec : List Char) : (chunkStep mc acc sec).2 ≠ [] := by
  unfold chunkStep
  split
  · simp [paraSep]
  · simp [paraSep]

/-- The chunk-loop invariant: the concatenation of emitted chunks plus the
current chunk equals what was there before plus every processed section
followed by the separator. -/
theorem chunkFold_join (mc : Nat) (sections : List (List Char))
    (chunks : List (List Char)) (current : List Char) :
    ((sections.foldl (chunkStep mc) (chunks, current)).1).join ++
      (sections.foldl (chunkStep mc) (chunks, current)).2 =
    chunks.join ++ current ++ withSeps sections := by
  induction sections generalizing chunks current with
  | nil => simp [withSeps]
  | cons sec rest ih =>
    rw [List.foldl_cons, withSeps_cons]
    by_cases h1 : current.length + sec.length < mc
    · rw [chunkStep_lt mc chunks current sec h1, ih]
      simp
    · by_cases h2 : current = []
      · subst h2
        rw [chunkStep_ge_nil mc chunks sec (by simpa using h1), ih]
        simp
      · rw [chunkStep_ge_ne mc chunks current sec h1 h2, ih]
        simp

/-- After processing at least one section the current chunk is non-empty
(it always ends with the separator just appended). -/
theorem chunkFold_snd_ne_nil (mc : Nat) (sections : List (List Char))
    (chunks : List (List Char)) (current : List Char) (h : sections ≠ []) :
    (sections.foldl (chunkStep mc) (chunks, current)).2 ≠ [] := by
  induction sections generalizing chunks current with
  | nil => exact absurd rfl h
  | cons sec rest ih =>
    rw [List.foldl_cons]
    match rest with
    | [] =>
      simp only [List.foldl_nil]
      exact chunkStep_snd_ne_nil mc (chunks, current) sec
    | t :: ts =>
      exact ih _ _ (by simp)

/-- `chunk_text` is the emitted chunks with the final (always non-empty)
current chunk flushed at the end. -/
theorem chunk_text_eq_fold (text : List Char) (mc : Nat) :
    chunk_text text mc =
      ((splitOnPara text).foldl (chunkStep mc) ([], [])).1 ++
        [((splitOnPara text).foldl (chunkStep mc) ([], [])).2] := by
  have hsnd := chunkFold_snd_ne_nil mc (splitOnPara text) [] []
    (splitOnPara_ne_nil text)
  unfold chunk_text
  simp only []
  rw [if_pos hsnd]

/-- C5: concatenating the chunks of `chunk_text`, in order, reconstructs the
input text followed by one trailing paragraph separator; in particular no
non-whitespace character content is dropped or duplicated, and the chunk
sequence is non-empty.  Holds for every chunk bound. -/
theorem chunk_text_reconstructs (text : List Char) (mc : Nat) :
    (chunk_text text mc).join = text ++ paraSep ∧
    (chunk_text text mc).join.filter (fun c => !c.isWhitespace) =
      text.filter (fun c => !c.isWhitespace) ∧
    chunk_text text mc ≠ [] := by
  have hne := splitOnPara_ne_nil text
  have hjoin := chunkFold_join mc (splitOnPara text) [] []
  have hws : withSeps (splitOnPara text) = text ++ paraSep := by
    rw [withSeps_eq_intercalate _ hne, intercalatePara_splitOnPara]
  have hj : (chunk_text text mc).join = text ++ paraSep := by
    rw [chunk_text_eq_fold]
    rw [hws] at hjoin
    simpa using hjoin
  refine ⟨hj, ?_, ?_⟩
  · rw [hj]
    simp [paraSep, List.filter_append]
  · rw [chunk_text_eq_fold]
    simp

theorem length_intercalatePara (l : List (List Char)) (h : l ≠ []) :
    (intercalatePara l).length = sumLens l + 2 * (l.length - 1) := by
  induction l with
  | nil => exact absurd rfl h
  | cons s rest ih =>
    match rest with
    | [] => simp [intercalatePara, sumLens]
    | t :: ts =>
      rw [intercalatePara]
      have := ih (by simp)
      simp only [List.length_append, List.length_cons] at *
      simp [sumLens] at this ⊢
      omega

/-- When every remaining section still fits, the whole tail is appended to
the current chunk and no chunk is flushed. -/
theorem chunkFold_single (mc : Nat) (sections : List (List Char))
    (chunks : List (List Char)) (current : List Char)
    (h : sections ≠ [])
    (hfit : current.length + (sumLens sections + 2 * (sections.length - 1)) < mc) :
    sections.foldl (chunkStep mc) (chunks, current) =
      (chunks, current ++ withSeps sections) := by
  induction sections generalizing current with
  | nil => exact absurd rfl h
  | cons sec rest ih =>
    rw [List.foldl_cons]
    have hsec : current.length + sec.length < mc := by
      simp [sumLens] at hfit
      omega
    rw [chunkStep_lt mc chunks current sec hsec]
    match rest with
    | [] =>
      simp [withSeps_cons, withSeps_nil]
    | t :: ts =>
      have hcond : (current ++ sec ++ paraSep).length +
          (sumLens (t :: ts) + 2 * ((t :: ts).length - 1)) < mc := by
        simp [sumLens, paraSep] at hfit ⊢
        omega
      rw [ih (current ++ sec ++ paraSep) (by simp) hcond]
      simp [withSeps_cons]

/-- C6: for input text strictly shorter than the chunk bound, `chunk_text`
returns exactly one chunk, equal to the input followed by one trailing
paragraph separator. -/
theorem chunk_text_short_single (text : List Char) (mc : Nat)
    (h : text.length < mc) :
    chunk_text text mc = [text ++ paraSep] := by
  have hne := splitOnPara_ne_nil text
  have hlen : (intercalatePara (splitOnPara text)).length = text.length := by
    rw [intercalatePara_splitOnPara]
  rw [length_intercalatePara _ hne] at hlen
  have hws : withSeps (splitOnPara text) = text ++ paraSep := by
    rw [withSeps_eq_intercalate _ hne, intercalatePara_splitOnPara]
  rw [chunk_text_eq_fold]
  rw [chunkFold_single mc (splitOnPara text) [] [] hne (by simp; omega)]
  simp [hws]

/-- Witness for C6 at a concrete input. -/
theorem chunk_text_short_single_witness :
    ("hello world".data).length < 120000 ∧
      chunk_text "hello world".data 120000 = ["hello world".data ++ paraSep] :=
  ⟨by decide, chunk_text_short_single "hello world".data 120000 (by decide)⟩

/-! Selector lemmas -/

theorem idxOf_append_of_mem (a : List Char) (u w : List (List Char))
    (h : a ∈ u) : idxOf a (u ++ w) < u.length := by
  induction u with
  | nil => simp at h
  | cons b u ih =>
    by_cases hb : b = a
    · simp [idxOf, hb]
    · have ha : a ∈ u := by
        rcases List.mem_cons.mp h with h' | h'
        · exact absurd h'.symm hb
        · exact h'
      simp only [List.cons_append, idxOf, if_neg hb, List.length_cons]
      exact Nat.succ_lt_succ (ih ha)

theorem idxOf_append_of_not_mem (a : List Char) (u w : List (List Char))
    (h : a ∉ u) : idxOf a (u ++ w) = u.length + idxOf a w := by
  induction u with
  | nil => simp
  | cons b u ih =>
    have hb : ¬ b = a := fun e => h (by simp [e])
    have hu : a ∉ u := fun e => h (by simp [e])
    simp only [List.cons_append, idxOf, if_neg hb, List.length_cons]
    show idxOf a (u ++ w) + 1 = u.length + 1 + idxOf a w
    rw [ih hu]
    omega

theorem idxOf_cons_self (a : List Char) (l : List (List Char)) :
    idxOf a (a :: l) = 0 := by simp [idxOf]

theorem selStep_skip_of_pred_false {pred : List Char → Bool}
    {acc : List (List Char)} {a : List Char} (h : pred a = false) :
    selStep pred acc a = acc := by
  simp [selStep, h]

theorem selStep_skip_of_mem {pred : List Char → Bool}
    {acc : List (List Char)} {a : List Char} (h : a ∈ acc) :
    selStep pred acc a = acc := by
  have hc : acc.contains a = true := List.elem_iff.mpr h
  unfold selStep
  rw [hc]
  simp

theorem selStep_append {pred : List Char → Bool}
    {acc : List (List Char)} {a : List Char} (hp : pred a = true)
    (hc : a ∉ acc) :
    selStep pred acc a = acc ++ [a] := by
  have hcc : acc.contains a = false := by
    rw [Bool.eq_false_iff]
    intro hx
    exact hc (List.elem_iff.mp hx)
  unfold selStep
  rw [hcc, hp]
  simp

theorem mem_selFold (pred : List Char → Bool) (v : List (List Char)) :
    ∀ (acc : List (List Char)) (x : List Char),
      x ∈ v.foldl (selStep pred) acc ↔
        x ∈ acc ∨ (x ∈ v ∧ pred x = true) := by
  induction v with
  | nil => intro acc x; simp
  | cons a v ih =>
    intro acc x
    rw [List.foldl_cons]
    by_cases hp : pred a = true
    · by_cases hc : a ∈ acc
      · rw [selStep_skip_of_mem hc, ih]
        constructor
        · rintro (h | ⟨h1, h2⟩)
          · exact Or.inl h
          · exact Or.inr ⟨List.mem_cons_of_mem _ h1, h2⟩
        · rintro (h | ⟨h1, h2⟩)
          · exact Or.inl h
          · rcases List.mem_cons.mp h1 with rfl | h1
            · exact Or.inl hc
            · exact Or.inr ⟨h1, h2⟩
      · rw [selStep_append hp hc, ih]
        constructor
        · rintro (h | ⟨h1, h2⟩)
          · rcases List.mem_append.mp h with h | h
            · exact Or.inl h
            · rcases List.mem_singleton.mp h with rfl
              exact Or.inr ⟨List.mem_cons_self _ _, hp⟩
          · exact Or.inr ⟨List.mem_cons_of_mem _ h1, h2⟩
        · rintro (h | ⟨h1, h2⟩)
          · exact Or.inl (List.mem_append.mpr (Or.inl h))
          · rcases List.mem_cons.mp h1 with rfl | h1
            · exact Or.inl (List.mem_append.mpr (Or.inr (by simp)))
            · exact Or.inr ⟨h1, h2⟩
    · rw [selStep_skip_of_pred_false (Bool.eq_false_iff.mpr hp), ih]
      constructor
      · rintro (h | ⟨h1, h2⟩)
        · exact Or.inl h
        · exact Or.inr ⟨List.mem_cons_of_mem _ h1, h2⟩
      · rintro (h | ⟨h1, h2⟩)
        · exact Or.inl h
        · rcases List.mem_cons.mp h1 with rfl | h1
          · exact absurd h2 hp
          · exact Or.inr ⟨h1, h2⟩

theorem nodup_selFold (pred : List Char → Bool) (v : List (List Char)) :
    ∀ acc : List (List Char), acc.Nodup → (v.foldl (selStep pred) acc).Nodup := by
  induction v with
  | nil => intro acc h; simpa using h
  | cons a v ih =>
    intro acc h
    rw [List.foldl_cons]
    by_cases hp : pred a = true
    · by_cases hc : a ∈ acc
      · rw [selStep_skip_of_mem hc]; exact ih acc h
      · rw [selStep_append hp hc]
        exact ih _ (by simp [List.nodup_append, h, hc])
    · rw [selStep_skip_of_pred_false (Bool.eq_false_iff.mpr hp)]
      exact ih acc h

theorem findIdxP_lt_of_front (pp : List Char → Bool) :
    ∀ (done rest : List (List Char)), (∃ q ∈ done, pp q = true) →
      ∃ k, findIdxP pp (done ++ rest) = some k ∧ k < done.length := by
  intro done
  induction done with
  | nil => intro rest h; simp at h
  | cons d ds ih =>
    intro rest h
    by_cases hd : pp d = true
    · exact ⟨0, by simp [findIdxP, hd], by simp⟩
    · have h' : ∃ q ∈ ds, pp q = true := by
        rcases h with ⟨q, hq, hpq⟩
        rcases List.mem_cons.mp hq with rfl | hq
        · exact absurd hpq hd
        · exact ⟨q, hq, hpq⟩
      rcases ih rest h' with ⟨k, hk, hklt⟩
      refine ⟨k + 1, ?_, by simp; omega⟩
      simp [findIdxP, hd, hk]

theorem findIdxP_eq_of_first (pp : List Char → Bool) :
    ∀ (done : List (List Char)) (p : List Char) (rest : List (List Char)),
      (∀ q ∈ done, pp q = false) → pp p = true →
      findIdxP pp (done ++ p :: rest) = some done.length := by
  intro done
  induction done with
  | nil => intro p rest _ hp; simp [findIdxP, hp]
  | cons d ds ih =>
    intro p rest hnone hp
    have hd : pp d = false := hnone d (by simp)
    have hds : ∀ q ∈ ds, pp q = false := fun q hq => hnone q (by simp [hq])
    simp [findIdxP, hd, ih p rest hds hp]

theorem findIdxP_none (pp : List Char → Bool) :
    ∀ l : List (List Char), (∀ q ∈ l, pp q = false) → findIdxP pp l = none := by
  intro l
  induction l with
  | nil => intro; rfl
  | cons d ds ih =>
    intro h
    have hd : pp d = false := h d (by simp)
    simp [findIdxP, hd, ih (fun q hq => h q (by simp [hq]))]

theorem rankOf_lt_of_matches_front (done rest : List (List Char))
    (a : List Char) (hsplit : preferred_order = done ++ rest)
    (h : ∃ q ∈ done, substrOf q a = true) : rankOf a < done.length := by
  rcases findIdxP_lt_of_front (fun p => substrOf p a) done rest h with ⟨k, hk, hklt⟩
  unfold rankOf firstMatchIdx
  rw [hsplit, hk]
  exact hklt

theorem rankOf_eq_of_first_match (done : List (List Char)) (p : List Char)
    (rest : List (List Char)) (a : List Char)
    (hsplit : preferred_order = done ++ p :: rest)
    (hnone : ∀ q ∈ done, substrOf q a = false) (hp : substrOf p a = true) :
    rankOf a = done.length := by
  unfold rankOf firstMatchIdx
  rw [hsplit, findIdxP_eq_of_first _ done p rest hnone hp]

theorem rankOf_eq_length_of_no_match (a : List Char)
    (h : ∀ q ∈ preferred_order, substrOf q a = false) :
    rankOf a = preferred_order.length := by
  unfold rankOf firstMatchIdx
  rw [findIdxP_none _ _ h]

/-- Scan invariant for one selector loop: processing the remaining names
`v` (where the full scanned list is `u ++ v`) preserves pairwise key
ordering, records exactly the guard-satisfying names, and keeps the
initial accumulator. -/
theorem selScan (pred : List Char → Bool) (avail : List (List Char))
    (K : Nat) (sm₀ : List (List Char))
    (H1 : ∀ a, a ∈ avail → pred a = true → a ∉ sm₀ → rankOf a = K)
    (H2 : ∀ b, b ∈ sm₀ → rankOf b < K) :
    ∀ (v u acc : List (List Char)), avail = u ++ v →
      acc.Pairwise (keyLt avail) →
      (∀ x, x ∈ u → pred x = true → x ∈ acc) →
      (∀ x, x ∈ acc → x ∈ sm₀ ∨ (x ∈ u ∧ pred x = true)) →
      sm₀ ⊆ acc →
      (v.foldl (selStep pred) acc).Pairwise (keyLt avail) ∧
      (∀ x, x ∈ avail → pred x = true → x ∈ v.foldl (selStep pred) acc) ∧
      (∀ x, x ∈ v.foldl (selStep pred) acc →
        x ∈ sm₀ ∨ (x ∈ avail ∧ pred x = true)) ∧
      sm₀ ⊆ v.foldl (selStep pred) acc := by
  intro v
  induction v with
  | nil =>
    intro u acc hsplit hpw hdone hprov hsub
    rw [List.append_nil] at hsplit
    subst hsplit
    exact ⟨hpw, fun x hx hp => hdone x hx hp, hprov, hsub⟩
  | cons a v ihv =>
    intro u acc hsplit hpw hdone hprov hsub
    rw [List.foldl_cons]
    have hau : a ∈ avail := by rw [hsplit]; simp
    by_cases hp : pred a = true
    · by_cases hc : a ∈ acc
      · rw [selStep_skip_of_mem hc]
        refine ihv (u ++ [a]) acc (by rw [hsplit]; simp) hpw ?_ ?_ hsub
        · intro x hx hpx
          rcases List.mem_append.mp hx with hx | hx
          · exact hdone x hx hpx
          · rcases List.mem_singleton.mp hx with rfl
            exact hc
        · intro x hx
          rcases hprov x hx with h | ⟨h1, h2⟩
          · exact Or.inl h
          · exact Or.inr ⟨List.mem_append.mpr (Or.inl h1), h2⟩
      · rw [selStep_append hp hc]
        have hans : a ∉ sm₀ := fun hs => hc (hsub hs)
        have hrka : rankOf a = K := H1 a hau hp hans
        have hanu : a ∉ u := fun hu => hc (hdone a hu hp)
        have hidxa : idxOf a avail = u.length := by
          rw [hsplit, idxOf_append_of_not_mem a u (a :: v) hanu,
            idxOf_cons_self]
          omega
        have hkey : ∀ b ∈ acc, keyLt avail b a := by
          intro b hb
          by_cases hbs : b ∈ sm₀
          · exact Or.inl (by rw [hrka]; exact H2 b hbs)
          · rcases hprov b hb with h | ⟨hbu, hbp⟩
            · exact absurd h hbs
            · have hbav : b ∈ avail := by rw [hsplit]; exact List.mem_append.mpr (Or.inl hbu)
              have hrkb : rankOf b = K := H1 b hbav hbp hbs
              refine Or.inr ⟨by rw [hrka, hrkb], ?_⟩
              rw [hidxa, hsplit]
              exact idxOf_append_of_mem b u (a :: v) hbu
        have hpw' : (acc ++ [a]).Pairwise (keyLt avail) := by
          rw [List.pairwise_append]
          exact ⟨hpw, by simp, fun b hb x hx => by
            rcases List.mem_singleton.mp hx with rfl; exact hkey b hb⟩
        refine ihv (u ++ [a]) (acc ++ [a]) (by rw [hsplit]; simp) hpw' ?_ ?_ ?_
        · intro x hx hpx
          rcases List.mem_append.mp hx with hx | hx
          · exact List.mem_append.mpr (Or.inl (hdone x hx hpx))
          · rcases List.mem_singleton.mp hx with rfl
            exact List.mem_append.mpr (Or.inr (by simp))
        · intro x hx
          rcases List.mem_append.mp hx with hx | hx
          · rcases hprov x hx with h | ⟨h1, h2⟩
            · exact Or.inl h
            · exact Or.inr ⟨List.mem_append.mpr (Or.inl h1), h2⟩
          · rcases List.mem_singleton.mp hx with rfl
            exact Or.inr ⟨List.mem_append.mpr (Or.inr (by simp)), hp⟩
        · exact fun y hy => List.mem_append.mpr (Or.inl (hsub hy))
    · rw [selStep_skip_of_pred_false (Bool.eq_false_iff.mpr hp)]
      refine ihv (u ++ [a]) acc (by rw [hsplit]; simp) hpw ?_ ?_ hsub
      · intro x hx hpx
        rcases List.mem_append.mp hx with hx | hx
        · exact hdone x hx hpx
        · rcases List.mem_singleton.mp hx with rfl
          exact absurd hpx hp
      · intro x hx
        rcases hprov x hx with h | ⟨h1, h2⟩
        · exact Or.inl h
        · exact Or.inr ⟨List.mem_append.mpr (Or.inl h1), h2⟩

/-- Outer invariant for the preference pass: after processing the
preference entries in `done`, the accumulator holds exactly the available
names matching one of them, pairwise ordered by the claimed key. -/
theorem preferredScan (available : List (List Char)) :
    ∀ (ps done : List (List Char)) (sm : List (List Char)),
      preferred_order = done ++ ps →
      (∀ a, a ∈ sm → a ∈ available ∧ ∃ q ∈ done, substrOf q a = true) →
      (∀ a, a ∈ available → (∃ q ∈ done, substrOf q a = true) → a ∈ sm) →
      sm.Pairwise (keyLt available) →
      (∀ a, a ∈ ps.foldl (fun sm p => available.foldl (selStep (substrOf p)) sm) sm →
        a ∈ available ∧ ∃ q ∈ preferred_order, substrOf q a = true) ∧
      (∀ a, a ∈ available → (∃ q ∈ preferred_order, substrOf q a = true) →
        a ∈ ps.foldl (fun sm p => available.foldl (selStep (substrOf p)) sm) sm) ∧
      (ps.foldl (fun sm p => available.foldl (selStep (substrOf p)) sm) sm).Pairwise
        (keyLt available) := by
  intro ps
  induction ps with
  | nil =>
    intro done sm hsplit ha hb hpw
    rw [List.append_nil] at hsplit
    subst hsplit
    exact ⟨ha, hb, hpw⟩
  | cons p ps ih =>
    intro done sm hsplit ha hb hpw
    rw [List.foldl_cons]
    have H1 : ∀ a, a ∈ available → substrOf p a = true → a ∉ sm →
        rankOf a = done.length := by
      intro a hav hpa hns
      refine rankOf_eq_of_first_match done p ps a hsplit ?_ hpa
      intro q hq
      rw [Bool.eq_false_iff]
      intro hqa
      exact hns (hb a hav ⟨q, hq, hqa⟩)
    have H2 : ∀ b, b ∈ sm → rankOf b < done.length := by
      intro b hbs
      exact rankOf_lt_of_matches_front done (p :: ps) b hsplit (ha b hbs).2
    have hscan := selScan (substrOf p) available done.length sm H1 H2
      available [] sm (by simp) hpw (by simp)
      (fun x hx => Or.inl hx) (fun y hy => hy)
    obtain ⟨hpw', hcompl, hprov, hsub⟩ := hscan
    refine ih (done ++ [p]) _ (by rw [hsplit]; simp) ?_ ?_ hpw'
    · intro a hamem
      rcases hprov a hamem with h | ⟨h1, h2⟩
      · obtain ⟨hav, q, hq, hqa⟩ := ha a h
        exact ⟨hav, q, by simp [hq], hqa⟩
      · exact ⟨h1, p, by simp, h2⟩
    · intro a hav hex
      rcases hex with ⟨q, hq, hqa⟩
      rcases List.mem_append.mp hq with hq | hq
      · exact hsub (hb a hav ⟨q, hq, hqa⟩)
      · rcases List.mem_singleton.mp hq with rfl
        exact hcompl a hav hqa

/-- C8: `get_available_models` returns only catalog models that support
content generation, and orders them by the key the spec describes: models
whose name contains an earlier preference-list entry first (the rank of a
model is the index of the first preference entry contained in its name,
non-matching models ranking after all seven entries), catalog order among
equal ranks; every supported catalog model appears in the output, the
non-matching ones appended after all matching ones. -/
theorem get_available_models_ordered (catalog : List ModelInfo) :
    (∀ m ∈ get_available_models (Except.ok catalog),
        ∃ info ∈ catalog, info.name = m ∧
          genContentName ∈ info.supported_generation_methods) ∧
    (get_available_models (Except.ok catalog)).Pairwise
      (keyLt (supportedNames catalog)) ∧
    (∀ m ∈ supportedNames catalog,
        m ∈ get_available_models (Except.ok catalog)) := by
  have hmain := preferredScan (supportedNames catalog) preferred_order [] []
    (by simp) (by simp) (by simp) (by simp)
  obtain ⟨P1a, P1b, P1c⟩ := hmain
  set s1 := preferred_order.foldl
    (fun sm p => (supportedNames catalog).foldl (selStep (substrOf p)) sm) []
    with hs1
  have H1 : ∀ a, a ∈ supportedNames catalog → (fun _ : List Char => true) a = true →
      a ∉ s1 → rankOf a = preferred_order.length := by
    intro a hav _ hns
    refine rankOf_eq_length_of_no_match a ?_
    intro q hq
    rw [Bool.eq_false_iff]
    intro hqa
    exact hns (P1b a hav ⟨q, hq, hqa⟩)
  have H2 : ∀ b, b ∈ s1 → rankOf b < preferred_order.length := by
    intro b hbs
    exact rankOf_lt_of_matches_front preferred_order [] b (by simp) (P1a b hbs).2
  have hscan := selScan (fun _ => true) (supportedNames catalog)
    preferred_order.length s1 H1 H2 (supportedNames catalog) [] s1
    (by simp) P1c (by simp) (fun x hx => Or.inl hx) (fun y hy => hy)
  obtain ⟨hpw, hcompl, hprov, _⟩ := hscan
  have hres : get_available_models (Except.ok catalog) =
      (supportedNames catalog).foldl (selStep (fun _ => true)) s1 := by
    simp [get_available_models, preferredPass, hs1]
  refine ⟨?_, ?_, ?_⟩
  · intro m hm
    rw [hres] at hm
    have hmav : m ∈ supportedNames catalog := by
      rcases hprov m hm with h | ⟨h1, _⟩
      · exact (P1a m h).1
      · exact h1
    unfold supportedNames at hmav
    rcases List.mem_map.mp hmav with ⟨info, hinfo, hname⟩
    rcases List.mem_filter.mp hinfo with ⟨hic, hmeth⟩
    exact ⟨info, hic, hname, List.elem_iff.mp hmeth⟩
  · rw [hres]
    exact hpw
  · intro m hm
    rw [hres]
    exact hcompl m hm rfl

/-- Witness: C8 instantiated at a concrete two-model catalog. -/
theorem get_available_models_ordered_witness :
    ∃ info ∈ [ModelInfo.mk "models/embedding-001".data ["embedText".data],
              ModelInfo.mk "models/gemini-2.5-pro".data ["generateContent".data]],
      info.name = "models/gemini-2.5-pro".data ∧
        genContentName ∈ info.supported_generation_methods :=
  (get_available_models_ordered
    [ModelInfo.mk "models/embedding-001".data ["embedText".data],
     ModelInfo.mk "models/gemini-2.5-pro".data ["generateContent".data]]).1
    "models/gemini-2.5-pro".data (by decide)

theorem nodup_prefFold (available : List (List Char)) :
    ∀ (ps : List (List Char)) (sm : List (List Char)), sm.Nodup →
      (ps.foldl (fun sm p => available.foldl (selStep (substrOf p)) sm) sm).Nodup := by
  intro ps
  induction ps with
  | nil => intro sm h; simpa using h
  | cons p ps ih =>
    intro sm h
    rw [List.foldl_cons]
    exact ih _ (nodup_selFold (substrOf p) available sm h)

/-- C10: the model list returned by `get_available_models` never contains a
duplicate name, even when a catalog name matches several preference-list
entries (the `not in sorted_models` guards deduplicate). -/
theorem get_available_models_nodup
    (catalogQuery : Except (List Char) (List ModelInfo)) :
    (get_available_models catalogQuery).Nodup := by
  match catalogQuery with
  | .error e => simp [get_available_models]
  | .ok catalog =>
    show ((supportedNames catalog).foldl (selStep (fun _ => true))
      (preferredPass (supportedNames catalog))).Nodup
    refine nodup_selFold _ _ _ ?_
    exact nodup_prefFold (supportedNames catalog) preferred_order [] (by simp)

/-! Client lemmas -/

/-- Totality invariant of the retry loop: every outcome is a normal `.ok`
return, and a non-empty record list can only come from a successful
attempt body. -/
theorem chunkRetryGo_total (attempts : Nat → Attempt) (n : Nat) :
    ∀ (remaining attempt : Nat),
      ∃ l sleeps, chunkRetryGo attempts n attempt remaining = (Except.ok l, sleeps) ∧
        (l = [] ∨ ∃ i, attempt ≤ i ∧ i < attempt + remaining ∧
          tryBody (attempts i) = Except.ok l) := by
  intro remaining
  induction remaining with
  | zero => intro attempt; exact ⟨[], [], rfl, Or.inl rfl⟩
  | succ remaining ih =>
    intro attempt
    cases htry : tryBody (attempts attempt) with
    | ok recs =>
      refine ⟨recs, [], ?_, Or.inr ⟨attempt, le_rfl, by omega, htry⟩⟩
      rw [chunkRetryGo, htry]
    | error e =>
      rw [chunkRetryGo, htry]
      dsimp only
      by_cases hjson : e.isJSONDecodeError = true
      · rw [if_pos hjson]
        by_cases hlt : attempt < n - 1
        · rw [if_pos hlt]
          obtain ⟨l, s, heq, hd⟩ := ih (attempt + 1)
          refine ⟨l, 2 ^ attempt :: s, by rw [heq], ?_⟩
          rcases hd with h | ⟨i, h1, h2, h3⟩
          · exact Or.inl h
          · exact Or.inr ⟨i, by omega, by omega, h3⟩
        · rw [if_neg hlt]
          obtain ⟨l, s, heq, hd⟩ := ih (attempt + 1)
          refine ⟨l, s, heq, ?_⟩
          rcases hd with h | ⟨i, h1, h2, h3⟩
          · exact Or.inl h
          · exact Or.inr ⟨i, by omega, by omega, h3⟩
      · rw [if_neg hjson]
        by_cases hrate : isRateLimitMsg e.msg = true
        · rw [if_pos hrate]
          by_cases hlt : attempt < n - 1
          · rw [if_pos hlt]
            obtain ⟨l, s, heq, hd⟩ := ih (attempt + 1)
            refine ⟨l, 2 ^ (attempt + 4) :: s, by rw [heq], ?_⟩
            rcases hd with h | ⟨i, h1, h2, h3⟩
            · exact Or.inl h
            · exact Or.inr ⟨i, by omega, by omega, h3⟩
          · rw [if_neg hlt]
            exact ⟨[], [], rfl, Or.inl rfl⟩
        · rw [if_neg hrate]
          exact ⟨[], [], rfl, Or.inl rfl⟩

/-- C9: `extract_entities_from_chunk` is total: whatever the scripted
attempt outcomes (exceptions, truncation, safety filtering, malformed
JSON on every attempt), it performs a normal return of a list — no
exception propagates — and a non-empty result can only be the value of a
successfully parsed attempt. -/
theorem extract_chunk_total (attempts : Nat → Attempt) (n : Nat) :
    ∃ l sleeps,
      extract_entities_from_chunk attempts n = (Except.ok l, sleeps) ∧
      (l = [] ∨ ∃ i, i < n ∧ tryBody (attempts i) = Except.ok l) := by
  obtain ⟨l, s, heq, hd⟩ := chunkRetryGo_total attempts n n 0
  refine ⟨l, s, heq, ?_⟩
  rcases hd with h | ⟨i, _, h2, h3⟩
  · exact Or.inl h
  · exact Or.inr ⟨i, by omega, h3⟩

/-- C3 counterexample: after exhausting retries on rate-limit errors the
client returns exactly the same value (`[]`) that a single non-retryable
error produces — the caller cannot tell the two apart from the result. -/
theorem rate_limit_result_counterexample :
    (extract_entities_from_chunk
      (fun _ => Attempt.raises "429 You exceeded your current quota".data) 3).1 =
      (extract_entities_from_chunk
        (fun _ => Attempt.raises "invalid request".data) 3).1 ∧
    (extract_entities_from_chunk
      (fun _ => Attempt.raises "429 You exceeded your current quota".data) 3).1 =
      Except.ok [] :=
  ⟨rfl, rfl⟩

/-- Backoff trace of a run whose every attempt hits a rate limit. -/
theorem chunkRetryGo_all_rate (attempts : Nat → Attempt) (n : Nat) :
    ∀ (remaining attempt : Nat), attempt + remaining = n → 1 ≤ remaining →
      (∀ i, i < n → ∃ m, attempts i = Attempt.raises m ∧ isRateLimitMsg m = true) →
      chunkRetryGo attempts n attempt remaining =
        (Except.ok [], (List.range (remaining - 1)).map (fun j => 2 ^ (attempt + j + 4))) := by
  intro remaining
  induction remaining with
  | zero => intro attempt _ h1; omega
  | succ remaining ih =>
    intro attempt hsum _ hall
    obtain ⟨m, hm, hrate⟩ := hall attempt (by omega)
    have htry : tryBody (attempts attempt) = Except.error ⟨false, m⟩ := by
      rw [hm]; rfl
    rw [chunkRetryGo, htry]
    dsimp only
    rw [if_neg (by simp)]
    rw [if_pos hrate]
    match remaining with
    | 0 =>
      rw [if_neg (by omega)]
      simp
    | remaining + 1 =>
      rw [if_pos (by omega)]
      rw [ih (attempt + 1) (by omega) (by omega) hall]
      simp only [Nat.add_sub_cancel]
      rw [List.range_succ_eq_map, List.map_cons, List.map_map]
      refine congrArg₂ Prod.mk rfl ?_
      refine congrArg₂ List.cons (by norm_num) ?_
      refine List.map_congr_left ?_
      intro j _
      simp only [Function.comp]
      congr 1
      omega

/-- C3 (amended): the rate-limit backoff is `2^(attempt+4)` seconds
(16, 32, ... for attempts 0, 1, ...), but after exhausting retries the
client returns the empty list — exactly the value returned for a
non-retryable error — so the caller cannot distinguish rate-limit
exhaustion from an ordinary failed chunk by the returned result. -/
theorem rate_limit_backoff_and_exhaustion (attempts₁ attempts₂ : Nat → Attempt)
    (n : Nat) (hn : 1 ≤ n)
    (h1 : ∀ i, i < n → ∃ m, attempts₁ i = Attempt.raises m ∧ isRateLimitMsg m = true)
    (m₂ : List Char) (h2 : attempts₂ 0 = Attempt.raises m₂)
    (hm₂ : isRateLimitMsg m₂ = false) :
    extract_entities_from_chunk attempts₁ n =
      (Except.ok [], (List.range (n - 1)).map (fun i => 2 ^ (i + 4))) ∧
    extract_entities_from_chunk attempts₂ n = (Except.ok [], []) ∧
    (extract_entities_from_chunk attempts₁ n).1 =
      (extract_entities_from_chunk attempts₂ n).1 := by
  have hA : extract_entities_from_chunk attempts₁ n =
      (Except.ok [], (List.range (n - 1)).map (fun i => 2 ^ (i + 4))) := by
    have := chunkRetryGo_all_rate attempts₁ n n 0 (by omega) hn h1
    unfold extract_entities_from_chunk
    rw [this]
    simp
  have hB : extract_entities_from_chunk attempts₂ n = (Except.ok [], []) := by
    unfold extract_entities_from_chunk
    match n, hn with
    | m + 1, _ =>
      have htry : tryBody (attempts₂ 0) = Except.error ⟨false, m₂⟩ := by
        rw [h2]; rfl
      rw [chunkRetryGo, htry]
      dsimp only
      rw [if_neg (by simp)]
      rw [if_neg (by simp [hm₂])]
  exact ⟨hA, hB, by rw [hA, hB]⟩

/-- Witness: C3 (amended) at three scripted 429 responses against one
scripted non-retryable failure. -/
theorem rate_limit_backoff_witness :
    extract_entities_from_chunk (fun _ => Attempt.raises "429".data) 3 =
      (Except.ok [], (List.range 2).map (fun i => 2 ^ (i + 4))) ∧
    extract_entities_from_chunk (fun _ => Attempt.raises "bad request".data) 3 =
      (Except.ok [], []) ∧
    (extract_entities_from_chunk (fun _ => Attempt.raises "429".data) 3).1 =
      (extract_entities_from_chunk (fun _ => Attempt.raises "bad request".data) 3).1 :=
  rate_limit_backoff_and_exhaustion _ _ 3 (by omega)
    (fun i _ => ⟨"429".data, rfl, by rfl⟩) "bad request".data rfl (by rfl)

/-- C1 counterexample: a model response whose single record has empty
`pan` and empty `entity` is returned verbatim — the client emits a record
with empty `pan`/`entity`. -/
theorem record_with_empty_pan_counterexample :
    (extract_entities_from_chunk
      (fun _ => Attempt.responds (some 1)
        "[\x7b\"pan\": \"\", \"relation\": \"PAN_Of\", \"entity\": \"\"\x7d]".data) 3).1
      = Except.ok [JsonValue.obj
          [("pan".data, JsonValue.str []),
           ("relation".data, JsonValue.str "PAN_Of".data),
           ("entity".data, JsonValue.str [])]] ∧
    lookupLast "pan".data
        [("pan".data, JsonValue.str []),
         ("relation".data, JsonValue.str "PAN_Of".data),
         ("entity".data, JsonValue.str [])] = some (JsonValue.str []) ∧
    lookupLast "entity".data
        [("pan".data, JsonValue.str []),
         ("relation".data, JsonValue.str "PAN_Of".data),
         ("entity".data, JsonValue.str [])] = some (JsonValue.str []) :=
  ⟨rfl, rfl, rfl⟩

/-- A run whose every attempt parses to a JSON failure ends in `[]`. -/
theorem chunkRetryGo_all_parse_fail (attempts : Nat → Attempt) (n : Nat) :
    ∀ (remaining attempt : Nat),
      (∀ i, attempt ≤ i → i < attempt + remaining →
        ∃ t, attempts i = Attempt.responds (some 1) t ∧
          json_loads (cleanResponseText t) = none) →
      (chunkRetryGo attempts n attempt remaining).1 = Except.ok [] := by
  intro remaining
  induction remaining with
  | zero => intro attempt _; rfl
  | succ remaining ih =>
    intro attempt hall
    obtain ⟨t, ht, hparse⟩ := hall attempt le_rfl (by omega)
    have htry : tryBody (attempts attempt) =
        Except.error ⟨true, "Expecting value".data⟩ := by
      rw [ht]
      show parseBody t = _
      unfold parseBody
      rw [hparse]
    rw [chunkRetryGo, htry]
    dsimp only
    rw [if_pos rfl]
    have hrest : ∀ i, attempt + 1 ≤ i → i < attempt + 1 + remaining →
        ∃ t, attempts i = Attempt.responds (some 1) t ∧
          json_loads (cleanResponseText t) = none :=
      fun i hi1 hi2 => hall i (by omega) (by omega)
    by_cases hlt : attempt < n - 1
    · rw [if_pos hlt]
      exact ih (attempt + 1) hrest
    · rw [if_neg hlt]
      exact ih (attempt + 1) hrest

/-- C1 (amended): the client performs no validation of the parsed
records.  A response whose cleaned text parses to a JSON array is returned
verbatim, whatever the records contain (empty or missing `pan`/`entity`
included); only the prompt asks the model to avoid such records.  A
response that fails to parse on every attempt yields zero records. -/
theorem extract_chunk_no_validation (attempts : Nat → Attempt) (n : Nat)
    (hn : 0 < n) :
    (∀ text l, attempts 0 = Attempt.responds (some 1) text →
        json_loads (cleanResponseText text) = some (JsonValue.arr l) →
        (extract_entities_from_chunk attempts n).1 = Except.ok l) ∧
    ((∀ i, i < n → ∃ t, attempts i = Attempt.responds (some 1) t ∧
        json_loads (cleanResponseText t) = none) →
      (extract_entities_from_chunk attempts n).1 = Except.ok []) := by
  constructor
  · intro text l hatt hparse
    have htry : tryBody (attempts 0) = Except.ok l := by
      rw [hatt]
      show parseBody text = _
      unfold parseBody
      rw [hparse]
      rfl
    unfold extract_entities_from_chunk
    match n, hn with
    | m + 1, _ =>
      rw [chunkRetryGo, htry]
  · intro hall
    unfold extract_entities_from_chunk
    exact chunkRetryGo_all_parse_fail attempts n n 0
      (fun i h1 h2 => hall i (by omega))

/-- Witness: C1 (amended) at a concrete parsed array. -/
theorem extract_chunk_no_validation_witness :
    (extract_entities_from_chunk
      (fun _ => Attempt.responds (some 1) "[\"a\"]".data) 3).1 =
      Except.ok [JsonValue.str ['a']] :=
  (extract_chunk_no_validation
      (fun _ => Attempt.responds (some 1) "[\"a\"]".data) 3 (by omega)).1
    "[\"a\"]".data [JsonValue.str ['a']] rfl (by rfl)

/-- C7 counterexample: a body containing a fence marker inside a JSON
string parses to a two-record set, but the same body wrapped in
```` ```json ... ``` ```` fences makes the lazy regex group capture a
malformed prefix, so parsing fails and the client ends with zero records. -/
theorem fenced_wrapping_counterexample :
    parseChunkText "[\"]```\", \"b\"]".data =
      some [JsonValue.str [']'], JsonValue.str ['b']] ∧
    parseChunkText (wrapFenced "[\"]```\", \"b\"]".data) = none ∧
    (extract_entities_from_chunk
      (fun _ => Attempt.responds (some 1) "[\"]```\", \"b\"]".data) 3).1 =
      Except.ok [JsonValue.str [']'], JsonValue.str ['b']] ∧
    (extract_entities_from_chunk
      (fun _ => Attempt.responds (some 1) (wrapFenced "[\"]```\", \"b\"]".data)) 3).1 =
      Except.ok [] ∧
    ([JsonValue.str [']'], JsonValue.str ['b']] : List JsonValue) ≠ [] :=
  ⟨rfl, rfl, rfl, rfl, by simp⟩

/-- C4 counterexample: with the file absent the function performs a normal
return of `None` (printing a file-not-found diagnostic); it does not raise
`FileNotFoundError`. -/
theorem pdf_missing_returns_none_counterexample :
    extract_text_from_pdf false (Except.ok [['a']]) =
      PdfResult.ret none PdfMsg.fileNotFoundMsg ∧
    extract_text_from_pdf false (Except.ok [['a']]) ≠
      PdfResult.raisesFileNotFoundError :=
  ⟨rfl, fun h => PdfResult.noConfusion h⟩

/-- C4 (amended): both failures are signalled by returning `None` — with a
file-not-found diagnostic when the file is absent (whatever the reader
would have produced), and with a no-text warning when every page yields
empty text; no `FileNotFoundError` is raised. -/
theorem pdf_failure_signals (reader : Except (List Char) (List (List Char)))
    (pages : List (List Char)) (hpages : ∀ p ∈ pages, p = []) :
    extract_text_from_pdf false reader = PdfResult.ret none PdfMsg.fileNotFoundMsg ∧
    extract_text_from_pdf true (Except.ok pages) = PdfResult.ret none PdfMsg.noTextMsg := by
  constructor
  · rfl
  · have hfilter : pages.filter (fun p => !p.isEmpty) = [] := by
      rw [List.filter_eq_nil_iff]
      intro p hp
      rw [hpages p hp]
      simp
    simp [extract_text_from_pdf, hfilter]

/-- Witness: C4 (amended) at concrete inputs. -/
theorem pdf_failure_signals_witness :
    extract_text_from_pdf false (Except.ok []) =
      PdfResult.ret none PdfMsg.fileNotFoundMsg ∧
    extract_text_from_pdf true (Except.ok [[], []]) =
      PdfResult.ret none PdfMsg.noTextMsg :=
  pdf_failure_signals (Except.ok []) [[], []]
    (by intro p hp; simp at hp; rcases hp with rfl | rfl <;> rfl)

/-- C2 counterexample: one model, two chunks, both yielding empty record
sets and no errors: the run returns `some []` — the "succeeded with zero
matches" value — not the `None` failure; the CSV writer then performs no
write. -/
theorem orchestrator_empty_run_counterexample :
    extract_entities_with_gemini ["m".data]
      (fun _ => ModelRun.chunkResults [[], []]) = some [] ∧
    extract_entities_with_gemini ["m".data]
      (fun _ => ModelRun.chunkResults [[], []]) ≠ none ∧
    write_to_csv [] = none :=
  ⟨rfl, fun h => Option.noConfusion h, rfl⟩

theorem accumulateEntities_all_empty (rs : List (List JsonValue))
    (h : ∀ r ∈ rs, r = []) : accumulateEntities rs = [] := by
  unfold accumulateEntities
  induction rs with
  | nil => rfl
  | cons r rest ih =>
    rw [List.foldl_cons]
    have hr : r = [] := h r (by simp)
    subst hr
    simp only [List.isEmpty_nil, if_true]
    exact ih (fun x hx => h x (by simp [hx]))

/-- All models produce only empty chunk results: the loop falls through to
`some []` on the last model. -/
theorem orchestrateFrom_all_empty (numModels : Nat) (runs : Nat → ModelRun) :
    ∀ (remaining i : Nat), i + remaining = numModels → 1 ≤ remaining →
      (∀ j, j < numModels → ∃ rs, runs j = ModelRun.chunkResults rs ∧
        ∀ r ∈ rs, r = []) →
      orchestrateFrom numModels runs i remaining = some [] := by
  intro remaining
  induction remaining with
  | zero => intro i _ h1; omega
  | succ remaining ih =>
    intro i hsum _ hall
    obtain ⟨rs, hrun, hempty⟩ := hall i (by omega)
    rw [orchestrateFrom, hrun]
    dsimp only
    rw [accumulateEntities_all_empty rs hempty]
    simp only [List.isEmpty_nil, Bool.not_true, Bool.false_eq_true, if_false]
    match remaining with
    | 0 =>
      rw [if_neg (by omega)]
    | remaining + 1 =>
      rw [if_pos (by omega)]
      exact ih (i + 1) (by omega) (by omega) hall

/-- C2 (amended): a run in which every model's chunk results are all empty
(and nothing raises) returns the empty record set `some []` — the same
outcome as "extraction succeeded with zero matches" — rather than the
`None` run-failure (`None` is reached only when the final model raises);
CsvWriter performs no write either way. -/
theorem orchestrator_all_empty (models : List (List Char))
    (runs : Nat → ModelRun) (hne : models ≠ [])
    (hall : ∀ i, i < models.length → ∃ rs, runs i = ModelRun.chunkResults rs ∧
      ∀ r ∈ rs, r = []) :
    extract_entities_with_gemini models runs = some [] ∧
    extract_entities_with_gemini models runs ≠ none ∧
    write_to_csv [] = none := by
  have hmain : extract_entities_with_gemini models runs = some [] := by
    unfold extract_entities_with_gemini
    rw [if_neg (by simpa using hne)]
    have hpos : 1 ≤ models.length := by
      cases models with
      | nil => exact absurd rfl hne
      | cons m ms => simp
    exact orchestrateFrom_all_empty models.length runs models.length 0 (by omega)
      hpos hall
  exact ⟨hmain, by rw [hmain]; simp, rfl⟩

/-- Witness: C2 (amended) at one model with one empty chunk result. -/
theorem orchestrator_all_empty_witness :
    extract_entities_with_gemini ["m".data] (fun _ => ModelRun.chunkResults [[]]) = some [] ∧
    extract_entities_with_gemini ["m".data] (fun _ => ModelRun.chunkResults [[]]) ≠ none ∧
    write_to_csv [] = none :=
  orchestrator_all_empty ["m".data] (fun _ => ModelRun.chunkResults [[]])
    (by simp) (fun i _ => ⟨[[]], rfl, by intro r hr; simpa using hr⟩)

/-! String infrastructure for the fence-wrapping analysis -/

theorem substrOf_infix_iff (p s : List Char) : substrOf p s = true ↔ p <:+: s := by
  induction s with
  | nil =>
    rw [show substrOf p [] = p.isEmpty from rfl, List.isEmpty_iff]
    constructor
    · intro h
      subst h
      exact List.infix_rfl
    · intro h
      rcases h with ⟨u, v, huv⟩
      have hlen := congrArg List.length huv
      simp only [List.length_append, List.length_nil] at hlen
      exact List.eq_nil_of_length_eq_zero (by omega)
  | cons c rest ih =>
    rw [substrOf, Bool.or_eq_true, List.isPrefixOf_iff_prefix, ih,
      List.infix_cons_iff]

theorem dropWhile_head_false (p : Char → Bool) (l : List Char) (c : Char)
    (t : List Char) (h : l.dropWhile p = c :: t) : p c = false := by
  induction l with
  | nil => simp at h
  | cons a l ih =>
    rw [List.dropWhile_cons] at h
    by_cases hp : p a = true
    · rw [if_pos hp] at h; exact ih h
    · rw [if_neg hp] at h
      cases h
      exact Bool.eq_false_iff.mpr hp

theorem dropWhile_append_all (p : Char → Bool) (u v : List Char)
    (h : ∀ c ∈ u, p c = true) : (u ++ v).dropWhile p = v.dropWhile p := by
  induction u with
  | nil => simp
  | cons a u ih =>
    rw [List.cons_append, List.dropWhile_cons, if_pos (h a (by simp))]
    exact ih (fun c hc => h c (by simp [hc]))

theorem dropWhile_append_of_ne_nil (p : Char → Bool) (u v : List Char)
    (c : Char) (t : List Char) (h : u.dropWhile p = c :: t) :
    (u ++ v).dropWhile p = c :: (t ++ v) := by
  induction u with
  | nil => simp at h
  | cons a u ih =>
    rw [List.dropWhile_cons] at h
    rw [List.cons_append, List.dropWhile_cons]
    by_cases hp : p a = true
    · rw [if_pos hp] at h
      rw [if_pos hp]
      exact ih h
    · rw [if_neg hp] at h
      rw [if_neg hp]
      cases h
      simp

theorem pyStrip_decomp (s : List Char) :
    ∃ lead trail, s = lead ++ pyStrip s ++ trail ∧
      (∀ c ∈ lead, isPyWs c = true) ∧ (∀ c ∈ trail, isPyWs c = true) := by
  unfold pyStrip
  refine ⟨s.takeWhile isPyWs,
    ((s.dropWhile isPyWs).reverse.takeWhile isPyWs).reverse, ?_, ?_, ?_⟩
  · conv_lhs => rw [← List.takeWhile_append_dropWhile isPyWs s]
    rw [List.append_assoc]
    congr 1
    conv_lhs => rw [← List.reverse_reverse (s.dropWhile isPyWs)]
    conv_lhs =>
      rw [← List.takeWhile_append_dropWhile isPyWs (s.dropWhile isPyWs).reverse]
    rw [List.reverse_append]
  · intro c hc
    exact List.mem_takeWhile_imp hc
  · intro c hc
    rw [List.mem_reverse] at hc
    exact List.mem_takeWhile_imp hc

theorem pyStrip_infix_self (s : List Char) : pyStrip s <:+: s := by
  obtain ⟨lead, trail, heq, _, _⟩ := pyStrip_decomp s
  exact ⟨lead, trail, heq.symm⟩

theorem pyStrip_last_not_ws (s : List Char) (mid : List Char) (c : Char)
    (h : pyStrip s = mid ++ [c]) : isPyWs c = false := by
  unfold pyStrip at h
  have h' : (s.dropWhile isPyWs).reverse.dropWhile isPyWs = c :: mid.reverse := by
    have := congrArg List.reverse h
    simpa using this
  exact dropWhile_head_false _ _ _ _ h'

theorem pyStrip_head_not_ws (s : List Char) (c : Char) (t : List Char)
    (h : pyStrip s = c :: t) : isPyWs c = false := by
  have hsuf : (s.dropWhile isPyWs).reverse.dropWhile isPyWs <:+
      (s.dropWhile isPyWs).reverse := List.dropWhile_suffix _
  have hpre : pyStrip s <+: s.dropWhile isPyWs := by
    unfold pyStrip
    rcases hsuf with ⟨w, hw⟩
    refine ⟨w.reverse, ?_⟩
    have := congrArg List.reverse hw
    simpa [List.reverse_append] using this
  rcases hpre with ⟨w, hw⟩
  rw [h] at hw
  exact dropWhile_head_false _ _ _ _ hw.symm

theorem pyStrip_eq_self (c d : Char) (m : List Char)
    (hc : isPyWs c = false) (hd : isPyWs d = false) :
    pyStrip (c :: m ++ [d]) = c :: m ++ [d] := by
  unfold pyStrip
  rw [show ((c :: m ++ [d]).dropWhile isPyWs) = c :: m ++ [d] by
    rw [List.cons_append, List.dropWhile_cons, if_neg (by simp [hc])]]
  rw [show (c :: m ++ [d]).reverse = d :: (m.reverse ++ [c]) by
    simp]
  rw [List.dropWhile_cons, if_neg (by simp [hd])]
  simp

theorem pyStrip_cons_ws (c : Char) (hc : isPyWs c = true) (l : List Char) :
    pyStrip (c :: l) = pyStrip l := by
  unfold pyStrip
  rw [List.dropWhile_cons, if_pos hc]

theorem pyStrip_append_ws (l : List Char) (c : Char) (hc : isPyWs c = true) :
    pyStrip (l ++ [c]) = pyStrip l := by
  unfold pyStrip
  match hdw : l.dropWhile isPyWs with
  | [] =>
    have hall : ∀ x ∈ l, isPyWs x = true := List.dropWhile_eq_nil_iff.mp hdw
    rw [dropWhile_append_all isPyWs l [c] hall]
    simp [List.dropWhile_cons, hc]
  | a :: t =>
    rw [dropWhile_append_of_ne_nil isPyWs l [c] a t hdw]
    have hrev : (a :: (t ++ [c])).reverse = c :: (a :: t).reverse := by simp
    rw [hrev, List.dropWhile_cons, if_pos hc]

theorem isPrefixOf_fence_cons3 (x1 x2 x3 : Char) (rest : List Char) :
    fenceL.isPrefixOf (x1 :: x2 :: x3 :: rest) = true ↔
      x1 = bq ∧ x2 = bq ∧ x3 = bq := by
  rw [show fenceL = [bq, bq, bq] from rfl]
  rw [List.isPrefixOf_iff_prefix]
  constructor
  · intro h
    rcases h with ⟨t, ht⟩
    simp only [List.cons_append, List.nil_append, List.cons.injEq] at ht
    exact ⟨ht.1.symm, ht.2.1.symm, ht.2.2.1.symm⟩
  · rintro ⟨rfl, rfl, rfl⟩
    exact ⟨rest, rfl⟩

theorem fence_lead_append (y : List Char) (c : Char) (z : List Char)
    (hc : c ≠ bq) (hy : y ≠ []) (h : fenceL <+: (y ++ c :: z)) :
    fenceL <+: y := by
  rcases h with ⟨t, ht⟩
  match y with
  | [] => exact absurd rfl hy
  | [a] =>
    simp only [fenceL, List.cons_append, List.nil_append, List.cons.injEq] at ht
    exact absurd ht.2.1.symm hc
  | [a, b] =>
    simp only [fenceL, List.cons_append, List.nil_append, List.cons.injEq] at ht
    exact absurd ht.2.2.1.symm hc
  | a :: b :: d :: y' =>
    simp only [fenceL, List.cons_append, List.nil_append, List.cons.injEq] at ht
    obtain ⟨h1, h2, h3, _⟩ := ht
    subst h1; subst h2; subst h3
    exact ⟨y', by simp [fenceL]⟩

theorem bq_not_ws : isPyWs bq = false := by decide

theorem close_not_bq : (']' : Char) ≠ bq := by decide

theorem nl_not_bq : ('\n' : Char) ≠ bq := by decide

theorem fenceAfterWs_ws_fence (t : List Char) (h : ∀ c ∈ t, isPyWs c = true) :
    fenceAfterWs (t ++ '\n' :: fenceL) = true := by
  unfold fenceAfterWs
  rw [dropWhile_append_all isPyWs t _ h]
  rw [List.dropWhile_cons, if_pos (by decide)]
  rw [show fenceL.dropWhile isPyWs = fenceL from rfl]
  decide

theorem fenceAfterWs_false_of_no_fence (y T : List Char)
    (hy : ¬ fenceL <:+: (y ++ [']'])) :
    fenceAfterWs (y ++ ']' :: T) = false := by
  by_contra habs
  have h : fenceAfterWs (y ++ ']' :: T) = true := by
    cases hb : fenceAfterWs (y ++ ']' :: T)
    · exact absurd hb habs
    · rfl
  unfold fenceAfterWs at h
  rw [List.isPrefixOf_iff_prefix] at h
  match hdw : y.dropWhile isPyWs with
  | [] =>
    have hall : ∀ c ∈ y, isPyWs c = true := List.dropWhile_eq_nil_iff.mp hdw
    rw [dropWhile_append_all isPyWs y _ hall, List.dropWhile_cons,
      if_neg (by decide)] at h
    rcases h with ⟨t, ht⟩
    simp only [fenceL, List.cons_append, List.nil_append, List.cons.injEq] at ht
    exact close_not_bq ht.1.symm
  | d :: y' =>
    rw [dropWhile_append_of_ne_nil isPyWs y _ d y' hdw] at h
    have h' : fenceL <+: ((d :: y') ++ ']' :: T) := by
      simpa using h
    have hlead : fenceL <+: (d :: y') :=
      fence_lead_append (d :: y') ']' T close_not_bq (by simp) h'
    have hsuf : (d :: y') <:+ y := hdw ▸ List.dropWhile_suffix isPyWs
    have hinf : fenceL <:+: y := hlead.isInfix.trans hsuf.isInfix
    exact hy (hinf.trans ⟨[], [']'], by simp⟩)

/-- The lazy group search: with no premature fence-adjacent `]` inside the
array text and a whitespace-then-fence tail, the group is exactly the
array text. -/
theorem findClose_spec (T : List Char) (hT : fenceAfterWs T = true) :
    ∀ mid : List Char,
      (∀ x y, mid = x ++ ']' :: y → fenceAfterWs (y ++ ']' :: T) = false) →
      findClose (mid ++ ']' :: T) = some mid := by
  intro mid
  induction mid with
  | nil =>
    intro _
    rw [List.nil_append, findClose]
    rw [if_pos (by simp [hT])]
  | cons c mid' ih =>
    intro hmid
    rw [List.cons_append, findClose]
    by_cases hcc : c = ']'
    · subst hcc
      have hfalse := hmid [] mid' rfl
      rw [if_neg (by simp [hfalse])]
      rw [ih (fun x y hxy => hmid (']' :: x) y (by rw [hxy]; rfl))]
      rfl
    · rw [if_neg (by simp [hcc])]
      rw [ih (fun x y hxy => hmid (c :: x) y (by rw [hxy]; rfl))]
      rfl

theorem not_fence_infix_of_fence_free (B : List Char)
    (hB : containsFence B = false) : ¬ fenceL <:+: B := by
  intro h
  rw [← substrOf_infix_iff] at h
  unfold containsFence at hB
  rw [h] at hB
  simp at hB

theorem fence_head_bq (c : Char) (t : List Char)
    (h : fenceL.isPrefixOf (c :: t) = true) : c = bq := by
  rcases List.isPrefixOf_iff_prefix.mp h with ⟨w, hw⟩
  simp only [fenceL, List.cons_append, List.nil_append, List.cons.injEq] at hw
  exact hw.1.symm

theorem fence_second_bq (c₁ c₂ : Char) (t : List Char)
    (h : fenceL.isPrefixOf (c₁ :: c₂ :: t) = true) : c₂ = bq := by
  rcases List.isPrefixOf_iff_prefix.mp h with ⟨w, hw⟩
  simp only [fenceL, List.cons_append, List.nil_append, List.cons.injEq] at hw
  exact hw.2.1.symm

theorem fence_third_bq (c₁ c₂ c₃ : Char) (t : List Char)
    (h : fenceL.isPrefixOf (c₁ :: c₂ :: c₃ :: t) = true) : c₃ = bq := by
  rw [isPrefixOf_fence_cons3] at h
  exact h.2.2

theorem matchFenceAt_of_not_fence (s : List Char)
    (h : fenceL.isPrefixOf s = false) : matchFenceAt s = none := by
  unfold matchFenceAt
  rw [h]
  simp

theorem wrapFenced_shape (B : List Char) :
    wrapFenced B = fenceL ++ (jsonWordL ++ ('\n' :: (B ++ '\n' :: fenceL))) := by
  simp [wrapFenced, fenceJsonL]

theorem matchFenceAt_wrap (B : List Char) :
    matchFenceAt (wrapFenced B) =
      match ('\n' :: (B ++ '\n' :: fenceL)).dropWhile isPyWs with
      | c :: body =>
        if c = '[' then (findClose body).map (fun g => '[' :: g ++ [']']) else none
      | [] => none := by
  rw [wrapFenced_shape]
  unfold matchFenceAt
  rw [if_pos (List.isPrefixOf_iff_prefix.mpr ⟨_, rfl⟩)]
  rw [show (fenceL ++ (jsonWordL ++ ('\n' :: (B ++ '\n' :: fenceL)))).drop 3 =
      jsonWordL ++ ('\n' :: (B ++ '\n' :: fenceL)) from by
    rw [show (3 : Nat) = fenceL.length from rfl, List.drop_left]]
  dsimp only
  rw [if_pos (List.isPrefixOf_iff_prefix.mpr ⟨_, rfl⟩)]
  rw [show (jsonWordL ++ ('\n' :: (B ++ '\n' :: fenceL))).drop 4 =
      '\n' :: (B ++ '\n' :: fenceL) from by
    rw [show (4 : Nat) = jsonWordL.length from rfl, List.drop_left]]

theorem dropWhile_wrap_of_strip_cons (B : List Char) (d : Char) (S' : List Char)
    (hS : pyStrip B = d :: S') :
    ∃ trail, (∀ c ∈ trail, isPyWs c = true) ∧
      ('\n' :: (B ++ '\n' :: fenceL)).dropWhile isPyWs =
        d :: (S' ++ (trail ++ '\n' :: fenceL)) := by
  obtain ⟨lead, trail, hdecomp, hlead, htrail⟩ := pyStrip_decomp B
  rw [hS] at hdecomp
  refine ⟨trail, htrail, ?_⟩
  have hd : isPyWs d = false := pyStrip_head_not_ws B d S' hS
  rw [List.dropWhile_cons, if_pos (by decide)]
  rw [hdecomp]
  rw [show ((lead ++ (d :: S') ++ trail) ++ '\n' :: fenceL) =
      lead ++ (d :: (S' ++ (trail ++ '\n' :: fenceL))) from by simp]
  rw [dropWhile_append_all isPyWs lead _ hlead]
  rw [List.dropWhile_cons, if_neg (by simp [hd])]

theorem dropWhile_wrap_of_strip_nil (B : List Char) (hS : pyStrip B = []) :
    ('\n' :: (B ++ '\n' :: fenceL)).dropWhile isPyWs = fenceL := by
  obtain ⟨lead, trail, hdecomp, hlead, htrail⟩ := pyStrip_decomp B
  rw [hS, List.append_nil] at hdecomp
  rw [List.dropWhile_cons, if_pos (by decide), hdecomp]
  rw [List.append_assoc]
  rw [dropWhile_append_all isPyWs lead _ hlead]
  rw [dropWhile_append_all isPyWs trail _ htrail]
  rw [List.dropWhile_cons, if_pos (by decide)]
  rfl

theorem matchFenceAt_wrap_none (B : List Char)
    (h : ∀ d S', pyStrip B = d :: S' → d ≠ '[') :
    matchFenceAt (wrapFenced B) = none := by
  rw [matchFenceAt_wrap]
  match hS : pyStrip B with
  | [] =>
    rw [dropWhile_wrap_of_strip_nil B hS]
    rw [show fenceL = bq :: [bq, bq] from rfl]
    simp only []
    rw [if_neg (by decide)]
  | d :: S' =>
    obtain ⟨trail, htrail, hdw⟩ := dropWhile_wrap_of_strip_cons B d S' hS
    rw [hdw]
    simp only []
    rw [if_neg (h d S' hS)]

theorem matchFenceAt_wrap_some (B mid : List Char)
    (hB : containsFence B = false)
    (hS : pyStrip B = '[' :: (mid ++ [']'])) :
    matchFenceAt (wrapFenced B) = some (pyStrip B) := by
  obtain ⟨trail, htrail, hdw⟩ := dropWhile_wrap_of_strip_cons B '[' (mid ++ [']']) hS
  rw [matchFenceAt_wrap, hdw]
  simp only []
  rw [if_pos trivial]
  rw [show (mid ++ [']']) ++ (trail ++ '\n' :: fenceL) =
      mid ++ ']' :: (trail ++ '\n' :: fenceL) from by simp]
  rw [findClose_spec (trail ++ '\n' :: fenceL)
    (fenceAfterWs_ws_fence trail htrail) mid ?hmid]
  · rw [hS]
    rfl
  case hmid =>
    intro x y hxy
    apply fenceAfterWs_false_of_no_fence
    intro hinf
    have hyS : (y ++ [']']) <:+: pyStrip B := by
      rw [hS, hxy]
      exact ⟨'[' :: (x ++ [']']), [], by simp⟩
    have hyB : (y ++ [']']) <:+: B := hyS.trans (pyStrip_infix_self B)
    exact not_fence_infix_of_fence_free B hB (hinf.trans hyB)

theorem searchFence_cons_of_match (c : Char) (r g : List Char)
    (h : matchFenceAt (c :: r) = some g) : searchFence (c :: r) = some g := by
  rw [searchFence, h]

theorem searchFence_skip (u : List Char) :
    ∀ v, (∀ y, y <:+ u → y ≠ [] → matchFenceAt (y ++ v) = none) →
      searchFence (u ++ v) = searchFence v := by
  induction u with
  | nil => intro v _; rfl
  | cons c u ih =>
    intro v h
    rw [List.cons_append, searchFence]
    rw [show matchFenceAt (c :: (u ++ v)) = none from by
      have := h (c :: u) List.suffix_rfl (by simp)
      simpa using this]
    exact ih v (fun y hy hne => h y (hy.trans (List.suffix_cons c u)) hne)

theorem suffix_append_cases (y u v : List Char) (h : y <:+ u ++ v) :
    y <:+ v ∨ ∃ u', u' <:+ u ∧ u' ≠ [] ∧ y = u' ++ v := by
  induction u with
  | nil => exact Or.inl (by simpa using h)
  | cons a u ih =>
    rw [List.cons_append] at h
    rcases List.suffix_cons_iff.mp h with rfl | h'
    · exact Or.inr ⟨a :: u, List.suffix_rfl, by simp, by simp⟩
    · rcases ih h' with h'' | ⟨u', hu1, hu2, hu3⟩
      · exact Or.inl h''
      · exact Or.inr ⟨u', hu1.trans (List.suffix_cons a u), hu2, hu3⟩

theorem searchFence_wrap_none (B : List Char) (hB : containsFence B = false)
    (hmatch : matchFenceAt (wrapFenced B) = none) :
    searchFence (wrapFenced B) = none := by
  have hw : wrapFenced B =
      (bq :: bq :: bq :: 'j' :: 's' :: 'o' :: 'n' :: '\n' :: []) ++
        (B ++ '\n' :: fenceL) := by
    simp [wrapFenced, fenceJsonL, fenceL, jsonWordL]
  rw [hw]
  rw [searchFence_skip _ _ ?h1]
  · rw [searchFence_skip B ('\n' :: fenceL) ?h2]
    · rfl
    case h2 =>
      intro y hy hne
      apply matchFenceAt_of_not_fence
      rw [Bool.eq_false_iff]
      intro habs
      have hpre : fenceL <+: (y ++ '\n' :: fenceL) :=
        List.isPrefixOf_iff_prefix.mp habs
      have hlead := fence_lead_append y '\n' fenceL nl_not_bq hne hpre
      exact not_fence_infix_of_fence_free B hB (hlead.isInfix.trans hy.isInfix)
  case h1 =>
    intro y hy hne
    rcases List.suffix_cons_iff.mp hy with rfl | hy
    · rw [← hw]
      exact hmatch
    rcases List.suffix_cons_iff.mp hy with rfl | hy
    · apply matchFenceAt_of_not_fence
      rw [Bool.eq_false_iff]
      intro habs
      have := fence_third_bq _ _ _ _ (by simpa using habs)
      exact absurd this (by decide)
    rcases List.suffix_cons_iff.mp hy with rfl | hy
    · apply matchFenceAt_of_not_fence
      rw [Bool.eq_false_iff]
      intro habs
      have := fence_second_bq _ _ _ (by simpa using habs)
      exact absurd this (by decide)
    rcases List.suffix_cons_iff.mp hy with rfl | hy
    · apply matchFenceAt_of_not_fence
      rw [Bool.eq_false_iff]
      intro habs
      have := fence_head_bq _ _ (by simpa using habs)
      exact absurd this (by decide)
    rcases List.suffix_cons_iff.mp hy with rfl | hy
    · apply matchFenceAt_of_not_fence
      rw [Bool.eq_false_iff]
      intro habs
      have := fence_head_bq _ _ (by simpa using habs)
      exact absurd this (by decide)
    rcases List.suffix_cons_iff.mp hy with rfl | hy
    · apply matchFenceAt_of_not_fence
      rw [Bool.eq_false_iff]
      intro habs
      have := fence_head_bq _ _ (by simpa using habs)
      exact absurd this (by decide)
    rcases List.suffix_cons_iff.mp hy with rfl | hy
    · apply matchFenceAt_of_not_fence
      rw [Bool.eq_false_iff]
      intro habs
      have := fence_head_bq _ _ (by simpa using habs)
      exact absurd this (by decide)
    rcases List.suffix_cons_iff.mp hy with rfl | hy
    · apply matchFenceAt_of_not_fence
      rw [Bool.eq_false_iff]
      intro habs
      have := fence_head_bq _ _ (by simpa using habs)
      exact absurd this (by decide)
    · simp at hy
      exact absurd hy hne

theorem fenceJson_imp_fence (y : List Char)
    (h : fenceJsonL.isPrefixOf y = true) : fenceL <+: y := by
  rcases List.isPrefixOf_iff_prefix.mp h with ⟨w, hw⟩
  refine ⟨jsonWordL ++ w, ?_⟩
  rw [← hw, fenceJsonL, List.append_assoc]

theorem removeFenceJson_id :
    ∀ l : List Char, (∀ y, y <:+ l → fenceJsonL.isPrefixOf y = false) →
      removeFenceJson l = l := by
  have H : ∀ (n : Nat) (l : List Char), l.length ≤ n →
      (∀ y, y <:+ l → fenceJsonL.isPrefixOf y = false) →
      removeFenceJson l = l := by
    intro n
    induction n with
    | zero =>
      intro l hl _
      match l with
      | [] => rfl
    | succ n ih =>
      intro l hl h
      match l with
      | [] => rfl
      | [c1] => rfl
      | [c1, c2] => rfl
      | [c1, c2, c3] => rfl
      | [c1, c2, c3, c4] => rfl
      | [c1, c2, c3, c4, c5] => rfl
      | [c1, c2, c3, c4, c5, c6] => rfl
      | c1 :: c2 :: c3 :: c4 :: c5 :: c6 :: c7 :: rest =>
        rw [removeFenceJson]
        rw [if_neg ?hcond]
        · rw [ih (c2 :: c3 :: c4 :: c5 :: c6 :: c7 :: rest) (by simp at hl ⊢; omega)
            (fun y hy => h y (hy.trans (List.suffix_cons c1 _)))]
        case hcond =>
          intro hcond
          simp only [Bool.and_eq_true, decide_eq_true_eq] at hcond
          obtain ⟨⟨⟨⟨⟨⟨h1, h2⟩, h3⟩, h4⟩, h5⟩, h6⟩, h7⟩ := hcond
          subst h1; subst h2; subst h3; subst h4; subst h5; subst h6; subst h7
          have := h _ List.suffix_rfl
          rw [show fenceJsonL.isPrefixOf
              (bq :: bq :: bq :: 'j' :: 's' :: 'o' :: 'n' :: rest) = true from
            List.isPrefixOf_iff_prefix.mpr ⟨rest, by simp [fenceJsonL, fenceL, jsonWordL]⟩] at this
          exact Bool.noConfusion this
  exact fun l => H l.length l le_rfl

theorem removeFence_append_fence :
    ∀ u : List Char,
      (∀ y, y <:+ u → y ≠ [] → fenceL.isPrefixOf (y ++ fenceL) = false) →
      removeFence (u ++ fenceL) = u := by
  have H : ∀ (n : Nat) (u : List Char), u.length ≤ n →
      (∀ y, y <:+ u → y ≠ [] → fenceL.isPrefixOf (y ++ fenceL) = false) →
      removeFence (u ++ fenceL) = u := by
    intro n
    induction n with
    | zero =>
      intro u hu _
      match u with
      | [] => rfl
    | succ n ih =>
      intro u hu h
      match u with
      | [] => rfl
      | c :: u' =>
        obtain ⟨l2, l3, rest, hdecomp⟩ :
            ∃ l2 l3 rest, u' ++ fenceL = l2 :: l3 :: rest := by
          match u' with
          | [] => exact ⟨bq, bq, [bq], rfl⟩
          | [d] => exact ⟨d, bq, [bq, bq], rfl⟩
          | d :: e :: u'' => exact ⟨d, e, u'' ++ fenceL, rfl⟩
        rw [List.cons_append, hdecomp, removeFence]
        rw [if_neg ?hcond]
        · rw [← hdecomp,
            ih u' (by simp at hu ⊢; omega)
              (fun y hy hne => h y (hy.trans (List.suffix_cons c u')) hne)]
        case hcond =>
          intro hcond
          simp only [Bool.and_eq_true, decide_eq_true_eq] at hcond
          obtain ⟨⟨h1, h2⟩, h3⟩ := hcond
          subst h1; subst h2; subst h3
          have := h (bq :: u') List.suffix_rfl (by simp)
          rw [show fenceL.isPrefixOf ((bq :: u') ++ fenceL) = true from ?_] at this
          · exact Bool.noConfusion this
          · apply List.isPrefixOf_iff_prefix.mpr
            refine ⟨rest, ?_⟩
            have : (bq :: u') ++ fenceL = bq :: (u' ++ fenceL) := by simp
            rw [this, hdecomp]
            simp [fenceL]
  exact fun u => H u.length u le_rfl

theorem cleanResponseText_fence_free (B : List Char)
    (hB : containsFence B = false) : cleanResponseText B = pyStrip B := by
  unfold cleanResponseText
  rw [if_neg ?_]
  intro habs
  unfold containsFence at habs
  rw [substrOf_infix_iff] at habs
  exact not_fence_infix_of_fence_free B hB (habs.trans (pyStrip_infix_self B))

theorem pyStrip_wrap (B : List Char) :
    pyStrip (wrapFenced B) = wrapFenced B := by
  have hshape : wrapFenced B =
      bq :: ((bq :: bq :: 'j' :: 's' :: 'o' :: 'n' :: '\n' ::
        (B ++ '\n' :: [bq, bq])) ++ [bq]) := by
    simp [wrapFenced, fenceJsonL, fenceL, jsonWordL]
  rw [hshape]
  rw [show bq :: ((bq :: bq :: 'j' :: 's' :: 'o' :: 'n' :: '\n' ::
        (B ++ '\n' :: [bq, bq])) ++ [bq]) =
      bq :: (bq :: bq :: 'j' :: 's' :: 'o' :: 'n' :: '\n' ::
        (B ++ '\n' :: [bq, bq])) ++ [bq] from by simp]
  exact pyStrip_eq_self bq bq _ bq_not_ws bq_not_ws

theorem containsFence_wrap (B : List Char) :
    containsFence (wrapFenced B) = true := by
  unfold containsFence
  rw [substrOf_infix_iff, wrapFenced_shape]
  exact (List.prefix_append fenceL _).isInfix

theorem removeFenceJson_wrap (B : List Char) (hB : containsFence B = false) :
    removeFenceJson (wrapFenced B) = '\n' :: (B ++ '\n' :: fenceL) := by
  have hshape : wrapFenced B =
      bq :: bq :: bq :: 'j' :: 's' :: 'o' :: 'n' :: ('\n' :: (B ++ '\n' :: fenceL)) := by
    simp [wrapFenced, fenceJsonL, fenceL, jsonWordL]
  rw [hshape, removeFenceJson, if_pos (by decide)]
  apply removeFenceJson_id
  intro y hy
  rw [Bool.eq_false_iff]
  intro habs
  rcases List.suffix_cons_iff.mp hy with rfl | hy'
  · have hfence := fenceJson_imp_fence _ habs
    have : ('\n' : Char) = bq :=
      fence_head_bq _ _ (List.isPrefixOf_iff_prefix.mpr hfence)
    exact absurd this (by decide)
  · rcases suffix_append_cases y B ('\n' :: fenceL) hy' with hcase | ⟨yB, hyB, hyBne, rfl⟩
    · have hlen : y.length ≤ 4 := by
        have := hcase.length_le
        simpa [fenceL] using this
      have h7 : fenceJsonL.length ≤ y.length :=
        (List.isPrefixOf_iff_prefix.mp habs).length_le
      rw [show fenceJsonL.length = 7 from rfl] at h7
      omega
    · have hfence := fenceJson_imp_fence _ habs
      have hlead := fence_lead_append yB '\n' fenceL nl_not_bq hyBne hfence
      exact not_fence_infix_of_fence_free B hB (hlead.isInfix.trans hyB.isInfix)

theorem removeFence_after (B : List Char) (hB : containsFence B = false) :
    removeFence ('\n' :: (B ++ '\n' :: fenceL)) = '\n' :: (B ++ ['\n']) := by
  rw [show '\n' :: (B ++ '\n' :: fenceL) = ('\n' :: (B ++ ['\n'])) ++ fenceL from by
    simp]
  apply removeFence_append_fence
  intro y hy hne
  rw [Bool.eq_false_iff]
  intro habs
  have hpre : fenceL <+: (y ++ fenceL) := List.isPrefixOf_iff_prefix.mp habs
  rcases List.suffix_cons_iff.mp hy with rfl | hy'
  · have : ('\n' : Char) = bq := by
      apply fence_head_bq _ _
      apply List.isPrefixOf_iff_prefix.mpr
      simpa using hpre
    exact absurd this (by decide)
  · rcases suffix_append_cases y B ['\n'] hy' with hcase | ⟨yB, hyB, hyBne, rfl⟩
    · rcases List.suffix_cons_iff.mp hcase with rfl | hcase'
      · have : ('\n' : Char) = bq := by
          apply fence_head_bq _ _
          apply List.isPrefixOf_iff_prefix.mpr
          simpa using hpre
        exact absurd this (by decide)
      · simp at hcase'
        exact absurd hcase' hne
    · have hpre' : fenceL <+: (yB ++ '\n' :: fenceL) := by
        simpa using hpre
      have hlead := fence_lead_append yB '\n' fenceL nl_not_bq hyBne hpre'
      exact not_fence_infix_of_fence_free B hB (hlead.isInfix.trans hyB.isInfix)

theorem pyStrip_pad (B : List Char) :
    pyStrip ('\n' :: (B ++ ['\n'])) = pyStrip B := by
  rw [pyStrip_cons_ws '\n' (by decide), pyStrip_append_ws B '\n' (by decide)]

/-! Parser consumption lemmas -/

theorem escStep_suffix (e : Char) (rest1 : List Char) (ch : Char)
    (r : List Char) (h : escStep e rest1 = some (ch, r)) : r <:+ rest1 := by
  unfold escStep at h
  split at h
  · cases h; exact List.suffix_rfl
  · split at h
    · cases h; exact List.suffix_rfl
    · split at h
      · cases h; exact List.suffix_rfl
      · split at h
        · cases h; exact List.suffix_rfl
        · split at h
          · cases h; exact List.suffix_rfl
          · split at h
            · cases h; exact List.suffix_rfl
            · split at h
              · cases h; exact List.suffix_rfl
              · split at h
                · cases h; exact List.suffix_rfl
                · split at h
                  · split at h
                    · split at h
                      · cases h
                        rename_i h1 h2 h3 h4 _
                        exact ⟨[_, _, _, _], rfl⟩
                      · exact absurd h (by simp)
                    · exact absurd h (by simp)
                  · exact absurd h (by simp)

theorem parseStrBody_suffix :
    ∀ (fuel : Nat) (s cs r : List Char),
      parseStrBody fuel s = some (cs, r) → r <:+ s := by
  intro fuel
  induction fuel with
  | zero => intro s cs r h; simp [parseStrBody] at h
  | succ fuel ih =>
    intro s cs r h
    match s with
    | [] => simp [parseStrBody] at h
    | c :: rest =>
      rw [parseStrBody.eq_def] at h
      dsimp only at h
      split at h
      · cases h
        exact List.suffix_cons _ _
      · split at h
        · match rest, h with
          | [], h => exact absurd h (by simp)
          | e :: rest1, h =>
            dsimp only at h
            revert h
            match hesc : escStep e rest1 with
            | none => intro h; exact absurd h (by simp)
            | some (ch, r') =>
              intro h
              simp only [Option.map_eq_some'] at h
              obtain ⟨p, hp, hpe⟩ := h
              cases hpe
              have h1 := ih r' p.1 p.2 hp
              have h2 := escStep_suffix e rest1 ch r' hesc
              exact (h1.trans h2).trans
                ((List.suffix_cons e rest1).trans (List.suffix_cons c (e :: rest1)))
        · split at h
          · exact absurd h (by simp)
          · simp only [Option.map_eq_some'] at h
            obtain ⟨p, hp, hpe⟩ := h
            cases hpe
            exact (ih rest p.1 p.2 hp).trans (List.suffix_cons c rest)

theorem numSign_suffix (s : List Char) : (numSign s).2 <:+ s := by
  unfold numSign
  match s with
  | [] => exact List.suffix_rfl
  | c :: rest =>
    dsimp only
    by_cases hc : c = '-'
    · rw [if_pos hc]
      exact List.suffix_cons c rest
    · rw [if_neg hc]

theorem numFrac_suffix (s2 fd s3 : List Char) (h : numFrac s2 = some (fd, s3)) :
    s3 <:+ s2 := by
  unfold numFrac at h
  match s2, h with
  | [], h =>
    simp only [Option.some.injEq, Prod.mk.injEq] at h
    rw [← h.2]
  | c :: r, h =>
    dsimp only at h
    by_cases hc : c = '.'
    · rw [if_pos hc] at h
      split at h
      · exact absurd h (by simp)
      · simp only [Option.some.injEq, Prod.mk.injEq] at h
        rw [← h.2]
        exact (List.dropWhile_suffix _).trans (List.suffix_cons c r)
    · rw [if_neg hc] at h
      simp only [Option.some.injEq, Prod.mk.injEq] at h
      rw [← h.2]

theorem numExp_suffix (s3 : List Char) (b : Bool) (ed s4 : List Char)
    (h : numExp s3 = some (b, ed, s4)) : s4 <:+ s3 := by
  unfold numExp at h
  match s3, h with
  | [], h =>
    simp only [Option.some.injEq, Prod.mk.injEq] at h
    rw [← h.2.2]
  | c :: r, h =>
    dsimp only at h
    by_cases hc : (c = 'e' || c = 'E') = true
    · rw [if_pos hc] at h
      split at h
      · exact absurd h (by simp)
      · simp only [Option.some.injEq, Prod.mk.injEq] at h
        rw [← h.2.2]
        refine (List.dropWhile_suffix _).trans ?_
        match r with
        | [] => exact List.nil_suffix
        | e :: rr =>
          dsimp only
          by_cases he : e = '+'
          · rw [if_pos he]
            exact (List.suffix_cons e rr).trans (List.suffix_cons c (e :: rr))
          · rw [if_neg he]
            by_cases he' : e = '-'
            · rw [if_pos he']
              exact (List.suffix_cons e rr).trans (List.suffix_cons c (e :: rr))
            · rw [if_neg he']
              exact List.suffix_cons c (e :: rr)
    · rw [if_neg hc] at h
      simp only [Option.some.injEq, Prod.mk.injEq] at h
      rw [← h.2.2]

theorem parseNum_suffix (s : List Char) (q : Rat) (r : List Char)
    (h : parseNum s = some (q, r)) : r <:+ s := by
  unfold parseNum at h
  dsimp only at h
  split at h
  · exact absurd h (by simp)
  · split at h
    · exact absurd h (by simp)
    · revert h
      match hf : numFrac ((numSign s).2.dropWhile Char.isDigit) with
      | none => intro h; exact absurd h (by simp)
      | some (fracD, s3) =>
        intro h
        dsimp only at h
        revert h
        match he : numExp s3 with
        | none => intro h; exact absurd h (by simp)
        | some (negE, expD, s4) =>
          intro h
          dsimp only at h
          simp only [Option.some.injEq, Prod.mk.injEq] at h
          have hr : r = s4 := h.2.symm
          subst hr
          exact (((numExp_suffix s3 negE expD _ he).trans
            (numFrac_suffix _ fracD s3 hf)).trans
              (List.dropWhile_suffix _)).trans (numSign_suffix s)

theorem skipJsonWs_suffix (s : List Char) : skipJsonWs s <:+ s :=
  List.dropWhile_suffix _

theorem parse_suffix :
    ∀ fuel : Nat,
      (∀ s v r, parseValue fuel s = some (v, r) → r <:+ s) ∧
      (∀ s vs r, parseElems fuel s = some (vs, r) → r <:+ s) ∧
      (∀ s ms r, parseMembers fuel s = some (ms, r) → r <:+ s) := by
  intro fuel
  induction fuel with
  | zero =>
    refine ⟨?_, ?_, ?_⟩ <;> intro s x r h <;>
      simp [parseValue, parseElems, parseMembers] at h
  | succ fuel ih =>
    obtain ⟨ihV, ihE, ihM⟩ := ih
    refine ⟨?_, ?_, ?_⟩
    · intro s v r h
      rw [parseValue.eq_def] at h
      split at h
      · exact absurd h (by simp)
      · exact absurd h (by simp)
      · simp only [Option.some.injEq, Prod.mk.injEq] at h
        obtain ⟨-, hr⟩ := h
        subst hr
        exact ⟨['n', 'u', 'l', 'l'], rfl⟩
      · simp only [Option.some.injEq, Prod.mk.injEq] at h
        obtain ⟨-, hr⟩ := h
        subst hr
        exact ⟨['t', 'r', 'u', 'e'], rfl⟩
      · simp only [Option.some.injEq, Prod.mk.injEq] at h
        obtain ⟨-, hr⟩ := h
        subst hr
        exact ⟨['f', 'a', 'l', 's', 'e'], rfl⟩
      · rename_i c r' hA hB hC heq
        injection heq with hfe
        subst hfe
        split at h
        · simp only [Option.map_eq_some'] at h
          obtain ⟨p, hp, hpe⟩ := h
          simp only [Prod.mk.injEq] at hpe
          obtain ⟨-, hr⟩ := hpe
          subst hr
          exact (parseStrBody_suffix _ r' p.1 p.2 hp).trans (List.suffix_cons c r')
        · split at h
          · revert h
            match hsk : skipJsonWs r' with
            | [] => intro h; exact absurd h (by simp)
            | c' :: r'' =>
              intro h
              dsimp only at h
              have hskip : (c' :: r'') <:+ r' := hsk ▸ skipJsonWs_suffix r'
              split at h
              · simp only [Option.some.injEq, Prod.mk.injEq] at h
                obtain ⟨-, hr⟩ := h
                subst hr
                exact ((List.suffix_cons c' r'').trans hskip).trans
                  (List.suffix_cons c r')
              · simp only [Option.map_eq_some'] at h
                obtain ⟨p, hp, hpe⟩ := h
                simp only [Prod.mk.injEq] at hpe
                obtain ⟨-, hr⟩ := hpe
                subst hr
                exact ((ihE (c' :: r'') p.1 p.2 hp).trans hskip).trans
                  (List.suffix_cons c r')
          · split at h
            · revert h
              match hsk : skipJsonWs r' with
              | [] => intro h; exact absurd h (by simp)
              | c' :: r'' =>
                intro h
                dsimp only at h
                have hskip : (c' :: r'') <:+ r' := hsk ▸ skipJsonWs_suffix r'
                split at h
                · simp only [Option.some.injEq, Prod.mk.injEq] at h
                  obtain ⟨-, hr⟩ := h
                  subst hr
                  exact ((List.suffix_cons c' r'').trans hskip).trans
                    (List.suffix_cons c r')
                · simp only [Option.map_eq_some'] at h
                  obtain ⟨p, hp, hpe⟩ := h
                  simp only [Prod.mk.injEq] at hpe
                  obtain ⟨-, hr⟩ := hpe
                  subst hr
                  exact ((ihM (c' :: r'') p.1 p.2 hp).trans hskip).trans
                    (List.suffix_cons c r')
            · simp only [Option.map_eq_some'] at h
              obtain ⟨p, hp, hpe⟩ := h
              simp only [Prod.mk.injEq] at hpe
              obtain ⟨-, hr⟩ := hpe
              subst hr
              exact parseNum_suffix (c :: r') p.1 p.2 hp
    · intro s vs r h
      rw [parseElems.eq_def] at h
      dsimp only at h
      revert h
      match hv : parseValue fuel s with
      | none => intro h; exact absurd h (by simp)
      | some (v, r₀) =>
        intro h
        dsimp only at h
        have hv' : r₀ <:+ s := ihV s v r₀ hv
        revert h
        match hsk : skipJsonWs r₀ with
        | [] => intro h; exact absurd h (by simp)
        | c :: r' =>
          intro h
          dsimp only at h
          have hskip : (c :: r') <:+ r₀ := hsk ▸ skipJsonWs_suffix r₀
          split at h
          · revert h
            match hrec : parseElems fuel (skipJsonWs r') with
            | none => intro h; exact absurd h (by simp)
            | some (vs', r₂) =>
              intro h
              dsimp only at h
              simp only [Option.some.injEq, Prod.mk.injEq] at h
              obtain ⟨-, hr⟩ := h
              subst hr
              exact ((((ihE _ vs' r₂ hrec).trans (skipJsonWs_suffix r')).trans
                (List.suffix_cons c r')).trans hskip).trans hv'
          · split at h
            · simp only [Option.some.injEq, Prod.mk.injEq] at h
              obtain ⟨-, hr⟩ := h
              subst hr
              exact (((List.suffix_cons c r').trans hskip).trans hv')
            · exact absurd h (by simp)
    · intro s ms r h
      rw [parseMembers.eq_def] at h
      dsimp only at h
      split at h
      · rename_i r0
        revert h
        match hstr : parseStrBody (r0.length + 1) r0 with
        | none => intro h; exact absurd h (by simp)
        | some (key, r1) =>
          intro h
          dsimp only at h
          have hkey : r1 <:+ r0 := parseStrBody_suffix _ r0 key r1 hstr
          revert h
          match hsk : skipJsonWs r1 with
          | [] => intro h; exact absurd h (by simp)
          | c :: r2 =>
            intro h
            dsimp only at h
            have hskip : (c :: r2) <:+ r1 := hsk ▸ skipJsonWs_suffix r1
            split at h
            · revert h
              match hv : parseValue fuel (skipJsonWs r2) with
              | none => intro h; exact absurd h (by simp)
              | some (v, r3) =>
                intro h
                dsimp only at h
                have hval : r3 <:+ r2 :=
                  (ihV _ v r3 hv).trans (skipJsonWs_suffix r2)
                revert h
                match hsk2 : skipJsonWs r3 with
                | [] => intro h; exact absurd h (by simp)
                | c' :: r4 =>
                  intro h
                  dsimp only at h
                  have hskip2 : (c' :: r4) <:+ r3 := hsk2 ▸ skipJsonWs_suffix r3
                  split at h
                  · revert h
                    match hrec : parseMembers fuel (skipJsonWs r4) with
                    | none => intro h; exact absurd h (by simp)
                    | some (ms', r5) =>
                      intro h
                      dsimp only at h
                      simp only [Option.some.injEq, Prod.mk.injEq] at h
                      obtain ⟨-, hr⟩ := h
                      subst hr
                      refine ((((ihM _ ms' r5 hrec).trans
                        (skipJsonWs_suffix r4)).trans
                          (List.suffix_cons c' r4)).trans hskip2).trans ?_
                      refine (hval.trans ((List.suffix_cons c r2).trans
                        hskip)).trans ?_
                      exact hkey.trans (List.suffix_cons '"' r0)
                  · split at h
                    · simp only [Option.some.injEq, Prod.mk.injEq] at h
                      obtain ⟨-, hr⟩ := h
                      subst hr
                      refine (((List.suffix_cons c' r4).trans hskip2).trans
                        hval).trans ?_
                      refine ((List.suffix_cons c r2).trans hskip).trans ?_
                      exact hkey.trans (List.suffix_cons '"' r0)
                    · exact absurd h (by simp)
            · exact absurd h (by simp)
      · exact absurd h (by simp)

theorem jsonWs_pyWs (c : Char) (h : isJsonWs c = true) : isPyWs c = true := by
  simp only [isJsonWs, Bool.or_eq_true, decide_eq_true_eq] at h
  simp only [isPyWs, Bool.or_eq_true, decide_eq_true_eq]
  tauto

theorem parseElems_close :
    ∀ fuel s vs r, parseElems fuel s = some (vs, r) → ∃ w, s = w ++ ']' :: r := by
  intro fuel
  induction fuel with
  | zero => intro s vs r h; simp [parseElems] at h
  | succ fuel ih =>
    intro s vs r h
    rw [parseElems.eq_def] at h
    dsimp only at h
    revert h
    match hv : parseValue fuel s with
    | none => intro h; exact absurd h (by simp)
    | some (v, r₀) =>
      intro h
      dsimp only at h
      have hv' : r₀ <:+ s := (parse_suffix fuel).1 s v r₀ hv
      revert h
      match hsk : skipJsonWs r₀ with
      | [] => intro h; exact absurd h (by simp)
      | c :: r' =>
        intro h
        dsimp only at h
        have hsuf : (c :: r') <:+ s := (hsk ▸ skipJsonWs_suffix r₀).trans hv'
        split at h
        · revert h
          match hrec : parseElems fuel (skipJsonWs r') with
          | none => intro h; exact absurd h (by simp)
          | some (vs', r₂) =>
            intro h
            dsimp only at h
            simp only [Option.some.injEq, Prod.mk.injEq] at h
            obtain ⟨-, hr⟩ := h
            subst hr
            obtain ⟨w, hw⟩ := ih (skipJsonWs r') vs' r₂ hrec
            have hsuf2 : skipJsonWs r' <:+ s :=
              ((skipJsonWs_suffix r').trans (List.suffix_cons c r')).trans hsuf
            obtain ⟨u, hu⟩ := hsuf2
            exact ⟨u ++ w, by rw [← hu, hw, List.append_assoc]⟩
        · split at h
          · rename_i hne hc
            simp only [Option.some.injEq, Prod.mk.injEq] at h
            obtain ⟨-, hr⟩ := h
            subst hr
            subst hc
            obtain ⟨u, hu⟩ := hsuf
            exact ⟨u, hu.symm⟩
          · exact absurd h (by simp)

theorem parseValue_lbracket_eq (fuel : Nat) (r : List Char) :
    parseValue (fuel + 1) ('[' :: r) =
      match skipJsonWs r with
      | c' :: r' =>
        if c' = ']' then some (.arr [], r')
        else (parseElems fuel (c' :: r')).map (fun p => (.arr p.1, p.2))
      | [] => none := by
  rfl

theorem parseValue_lbracket (fuel : Nat) (r : List Char) (v : JsonValue)
    (rem : List Char) (h : parseValue (fuel + 1) ('[' :: r) = some (v, rem)) :
    ∃ w, r = w ++ ']' :: rem := by
  rw [parseValue_lbracket_eq] at h
  revert h
  match hsk : skipJsonWs r with
  | [] => intro h; exact absurd h (by simp)
  | c' :: r' =>
    intro h
    dsimp only at h
    have hsuf : (c' :: r') <:+ r := hsk ▸ skipJsonWs_suffix r
    split at h
    · rename_i hc
      simp only [Option.some.injEq, Prod.mk.injEq] at h
      obtain ⟨-, hr⟩ := h
      subst hr
      subst hc
      obtain ⟨u, hu⟩ := hsuf
      exact ⟨u, hu.symm⟩
    · simp only [Option.map_eq_some'] at h
      obtain ⟨p, hp, hpe⟩ := h
      simp only [Prod.mk.injEq] at hpe
      obtain ⟨-, hr⟩ := hpe
      subst hr
      obtain ⟨w, hw⟩ := parseElems_close fuel (c' :: r') p.1 p.2 hp
      obtain ⟨u, hu⟩ := hsuf
      refine ⟨u ++ w, ?_⟩
      rw [← hu, hw, List.append_assoc]

theorem json_loads_bracket_shape (S r : List Char) (v : JsonValue)
    (hhead : S = '[' :: r)
    (hlast : ∀ mid c, S = mid ++ [c] → isPyWs c = false)
    (h : json_loads S = some v) :
    ∃ mid, S = '[' :: (mid ++ [']']) := by
  subst hhead
  unfold json_loads at h
  rw [show skipJsonWs ('[' :: r) = '[' :: r from by
    rw [skipJsonWs, List.dropWhile_cons, if_neg (by decide)]] at h
  revert h
  match hv : parseValue (2 * ('[' :: r).length + 2) ('[' :: r) with
  | none => intro h; exact absurd h (by simp)
  | some (v', rem) =>
    intro h
    dsimp only at h
    split at h
    · rename_i hrem
      rw [show 2 * ('[' :: r).length + 2 = (2 * ('[' :: r).length + 1) + 1 from
        rfl] at hv
      obtain ⟨w, hw⟩ := parseValue_lbracket _ r v' rem hv
      have hws : ∀ c ∈ rem, isJsonWs c = true := by
        intro c hc
        unfold skipJsonWs at hrem
        have := List.dropWhile_eq_nil_iff.mp hrem
        simpa using this c hc
      rcases List.eq_nil_or_concat rem with hnil | ⟨t, c, rfl⟩
      · subst hnil
        exact ⟨w, by rw [hw]⟩
      · exfalso
        have hc : isJsonWs c = true := hws c (by simp)
        have hpy : isPyWs c = false :=
          hlast ('[' :: (w ++ ']' :: t)) c (by rw [hw]; simp)
        rw [jsonWs_pyWs c hc] at hpy
        exact absurd hpy (by decide)
    · exact absurd h (by simp)

theorem cleanResponseText_wrap (B : List Char) (hB : containsFence B = false)
    (hok : ∀ S', pyStrip B = '[' :: S' → ∃ v, json_loads (pyStrip B) = some v) :
    cleanResponseText (wrapFenced B) = pyStrip B := by
  unfold cleanResponseText
  dsimp only
  rw [pyStrip_wrap B, containsFence_wrap B, if_pos rfl]
  match hS : pyStrip B with
  | [] =>
    have hm := matchFenceAt_wrap_none B
      (fun d S' hd => by rw [hS] at hd; exact absurd hd (by simp))
    rw [searchFence_wrap_none B hB hm]
    dsimp only
    rw [removeFenceJson_wrap B hB, removeFence_after B hB, pyStrip_pad B]
    exact hS
  | d :: S' =>
    by_cases hd : d = '['
    · subst hd
      obtain ⟨v, hv⟩ := hok S' hS
      obtain ⟨mid, hmid⟩ := json_loads_bracket_shape (pyStrip B) S' v hS
        (fun m c hmc => pyStrip_last_not_ws B m c hmc) hv
      have hm := matchFenceAt_wrap_some B mid hB hmid
      have hcons : wrapFenced B =
          bq :: (bq :: bq :: 'j' :: 's' :: 'o' :: 'n' :: '\n' ::
            (B ++ '\n' :: fenceL)) := by
        simp [wrapFenced, fenceJsonL, fenceL, jsonWordL]
      have hsearch : searchFence (wrapFenced B) = some (pyStrip B) := by
        rw [hcons]
        refine searchFence_cons_of_match _ _ _ ?_
        rw [← hcons]
        exact hm
      rw [hsearch]
      dsimp only
      exact hS
    · have hm := matchFenceAt_wrap_none B
        (fun d' S'' hd' => by
          rw [hS] at hd'
          injection hd' with h1 h2
          exact h1 ▸ hd)
      rw [searchFence_wrap_none B hB hm]
      dsimp only
      rw [removeFenceJson_wrap B hB, removeFence_after B hB, pyStrip_pad B]
      exact hS

/-- C7 (amended): for every completion body that contains no fence marker
and parses to a record set, the same body wrapped in markdown
```` ```json ... ``` ```` fences parses to the same record set: the regex
group then captures exactly the stripped body, and when no bracketed group
exists the replace-and-strip fallback reproduces the stripped body. -/
theorem fenced_wrapping_same (B : List Char) (R : List JsonValue)
    (hB : containsFence B = false) (h : parseChunkText B = some R) :
    parseChunkText (wrapFenced B) = some R := by
  unfold parseChunkText at h ⊢
  rw [cleanResponseText_fence_free B hB] at h
  rw [cleanResponseText_wrap B hB (fun S' hS =>
    (Option.map_eq_some'.mp h).imp (fun v hv => hv.1))]
  exact h

/-- Witness: C7 (amended) at the concrete fence-free body `["a"]`, which
parses to the one-record set both bare and wrapped in fences. -/
theorem fenced_wrapping_same_witness :
    containsFence "[\"a\"]".data = false ∧
      parseChunkText "[\"a\"]".data = some [JsonValue.str ['a']] ∧
      parseChunkText (wrapFenced "[\"a\"]".data) = some [JsonValue.str ['a']] :=
  ⟨by decide, by rfl,
    fenced_wrapping_same "[\"a\"]".data [JsonValue.str ['a']] (by decide) (by rfl)⟩
